import Mathlib

/-!
Shallow embedding of `convert.py` (Hoarder → Linkwarden bookmark converter).

Modelling conventions:
* JSON values (the result of `json.load` and the payload dicts built by the
  program) are the inductive `JValue`; objects are ordered association lists,
  mirroring Python dict insertion order (keys assumed unique, as `json.load`
  collapses duplicates).
* A Python `datetime` is `PyDateTime`: `wall` is the instant shown on the
  clock face, in microseconds since 1970-01-01T00:00:00 of the naive reading,
  and `tz` is `none` for a naive datetime or `some off` for an aware one with
  a fixed UTC offset of `off` seconds.
* JSON numbers are modelled as `Int` (the program's numeric timestamps are
  integral; float-valued inputs are outside the model).
* `sys.exit(msg)` and uncaught Python exceptions are both modelled as
  `Except.error`; a `.error` result means the process terminates without
  writing the output file.
-/

inductive JValue where
  | null : JValue
  | bool : Bool → JValue
  | num : Int → JValue
  | str : String → JValue
  | arr : List JValue → JValue
  | obj : List (String × JValue) → JValue
deriving Repr

/-- Python truthiness of a JSON value: `None`, `False`, `0`, `""`, `[]`,
`{}` are falsy, everything else truthy. -/
def pyFalsy : JValue → Bool
  | .null => true
  | .bool b => !b
  | .num n => n == 0
  | .str s => s == ""
  | .arr l => l.isEmpty
  | .obj l => l.isEmpty

/-- `d.get(key)` on a Python dict: value at the first occurrence of `key`,
`None` (`JValue.null`) when absent. -/
def dictGetJ : List (String × JValue) → String → JValue
  | [], _ => .null
  | (k, v) :: rest, key => if k = key then v else dictGetJ rest key

/-- `key in d` / `d[key]` lookup on a Python dict, `none` when the key is
absent (a `KeyError` site in the source). -/
def dictFind : List (String × JValue) → String → Option JValue
  | [], _ => none
  | (k, v) :: rest, key => if k = key then some v else dictFind rest key

/-- A Python `datetime`: wall-clock microseconds since the epoch of the naive
reading, plus `none` (naive) or `some offsetSeconds` (aware, fixed offset). -/
structure PyDateTime where
  wall : Int
  tz : Option Int
deriving Repr, DecidableEq

/-- The absolute instant a datetime denotes, in microseconds since the Unix
epoch; a naive datetime is read as UTC (the program only ever compares
aware-UTC datetimes). -/
def dtKey (dt : PyDateTime) : Int :=
  dt.wall - (dt.tz.getD 0) * 1000000

/-- Characters removed by Python `str.strip()` (ASCII whitespace subset of
Python's Unicode whitespace; the program's data never carries the rest). -/
def pySpace (c : Char) : Bool :=
  c = ' ' || c = '\t' || c = '\n' || c = '\r' || c = '\x0b' || c = '\x0c'

/-- `str.strip()` on the character list: drop leading and trailing runs of
whitespace. -/
def stripChars (l : List Char) : List Char :=
  (((l.dropWhile pySpace).reverse.dropWhile pySpace)).reverse

/-- Python `str.strip()`. -/
def pyStrip (s : String) : String :=
  ⟨stripChars s.data⟩

/-- ASCII decimal digit test (`str.isdigit` restricted to ASCII). -/
def isAsciiDigit (c : Char) : Bool :=
  '0' ≤ c && c ≤ '9'

/-- Python `str.isdigit()`: non-empty and all digits. -/
def pyIsdigit (s : String) : Bool :=
  !s.data.isEmpty && s.data.all isAsciiDigit

/-- Numeric value of an all-digit character list. -/
def digitsToNat (l : List Char) : Nat :=
  l.foldl (fun a c => a * 10 + (c.toNat - 48)) 0

/-- Decimal digit characters of `n`, most significant first; the extra fuel
argument keeps the recursion structural (fuel `n + 1` always suffices). -/
def natDigitsAux : Nat → Nat → List Char
  | 0, _ => []
  | f + 1, n =>
    if n < 10 then [Nat.digitChar n]
    else natDigitsAux f (n / 10) ++ [Nat.digitChar (n % 10)]

/-- Decimal digit characters of `n`, most significant first. -/
def natDigitChars (n : Nat) : List Char :=
  natDigitsAux (n + 1) n

/-- Zero-padded decimal rendering of `n` to at least `w` characters. -/
def padNum (w n : Nat) : List Char :=
  List.replicate (w - (natDigitChars n).length) '0' ++ natDigitChars n

/-- Civil date from days since 1970-01-01 (proleptic Gregorian; the standard
era-based algorithm, with floor division). Returns `(year, month, day)`. -/
def civil_from_days (z0 : Int) : Int × Nat × Nat :=
  let z := z0 + 719468
  let era := Int.fdiv z 146097
  let doe := (z - era * 146097).toNat
  let yoe := (doe - doe / 1460 + doe / 36524 - doe / 146096) / 365
  let y := era * 400 + yoe
  let doy := doe - (365 * yoe + yoe / 4 - yoe / 100)
  let mp := (5 * doy + 2) / 153
  let d := doy - (153 * mp + 2) / 5 + 1
  let m := if mp < 10 then mp + 3 else mp - 9
  (if m ≤ 2 then y + 1 else y, m, d)

/-- Days since 1970-01-01 of a civil date (inverse of `civil_from_days`). -/
def days_from_civil (y0 : Int) (m d : Nat) : Int :=
  let y := if m ≤ 2 then y0 - 1 else y0
  let era := Int.fdiv y 400
  let yoe := (y - era * 400).toNat
  let mp := if m > 2 then m - 3 else m + 9
  let doy := (153 * mp + 2) / 5 + d - 1
  let doe := yoe * 365 + yoe / 4 - yoe / 100 + doy
  era * 146097 + (doe : Int) - 719468

/-- Leap-year test (proleptic Gregorian). -/
def isLeapYear (y : Int) : Bool :=
  (Int.emod y 4 == 0 && Int.emod y 100 != 0) || Int.emod y 400 == 0

/-- Days in month `m` of year `y`. -/
def daysInMonth (y : Int) (m : Nat) : Nat :=
  if m = 2 then (if isLeapYear y then 29 else 28)
  else if m = 4 ∨ m = 6 ∨ m = 9 ∨ m = 11 then 30
  else 31

/-- The date-and-time part of `datetime.isoformat()`:
`YYYY-MM-DDTHH:MM:SS[.ffffff]`, computed from the wall-clock microseconds.
(The program's datetimes have years in 1..9999, where this rendering agrees
with Python's.) -/
def civilTimeChars (wall : Int) : List Char :=
  let secs := Int.fdiv wall 1000000
  let micro := (wall - secs * 1000000).toNat
  let days := Int.fdiv secs 86400
  let sod := (secs - days * 86400).toNat
  let ymd := civil_from_days days
  let h := sod / 3600
  let mi := sod % 3600 / 60
  let s := sod % 60
  padNum 4 ymd.1.toNat ++ '-' :: padNum 2 ymd.2.1 ++ '-' :: padNum 2 ymd.2.2 ++
    'T' :: padNum 2 h ++ ':' :: padNum 2 mi ++ ':' :: padNum 2 s ++
    (if micro = 0 then [] else '.' :: padNum 6 micro)

/-- The UTC-offset suffix of `datetime.isoformat()`: empty for a naive
datetime, `±HH:MM` (with `:SS` when the offset has seconds) for an aware
one. -/
def offsetChars : Option Int → List Char
  | none => []
  | some off =>
    let sign := if off < 0 then '-' else '+'
    let a := off.natAbs
    let hh := a / 3600
    let mm := a % 3600 / 60
    let ss := a % 60
    sign :: padNum 2 hh ++ ':' :: padNum 2 mm ++
      (if ss = 0 then [] else ':' :: padNum 2 ss)

/-- Python `datetime.isoformat()`. -/
def isoformat (dt : PyDateTime) : String :=
  ⟨civilTimeChars dt.wall ++ offsetChars dt.tz⟩

/-- Match `pat` against the front of the list; on success return the
remainder. -/
def stripPfx : List Char → List Char → Option (List Char)
  | [], l => some l
  | _ :: _, [] => none
  | p :: ps, c :: cs => if p = c then stripPfx ps cs else none

/-- Left-to-right, non-overlapping replacement of `pat` by `rep`, the
semantics of Python `str.replace`; the fuel argument keeps the recursion
structural (fuel ≥ list length suffices for non-empty `pat`). -/
def replaceGo (pat rep : List Char) : Nat → List Char → List Char
  | _, [] => []
  | 0, l => l
  | f + 1, c :: rest =>
    match stripPfx pat (c :: rest) with
    | some rem => rep ++ replaceGo pat rep f rem
    | none => c :: replaceGo pat rep f rest

/-- Python `s.replace(pat, rep)` (for non-empty `pat`, the only use in the
program). -/
def pyReplace (s pat rep : String) : String :=
  ⟨replaceGo pat.data rep.data s.data.length s.data⟩

/-- The canonical string form the program emits:
`dt.isoformat().replace("+00:00", "Z")`. -/
def isoZ (dt : PyDateTime) : String :=
  pyReplace (isoformat dt) "+00:00" "Z"

/-- Read exactly `n` decimal digits from the front of the list. -/
def readDigits : Nat → List Char → Option (Nat × List Char)
  | 0, l => some (0, l)
  | n + 1, c :: rest =>
    if isAsciiDigit c then
      (readDigits n rest).map (fun p => (p.1 + (c.toNat - 48) * 10 ^ n, p.2))
    else none
  | _ + 1, [] => none

/-- Read a literal character from the front of the list. -/
def readChar (ch : Char) : List Char → Option (List Char)
  | c :: rest => if c = ch then some rest else none
  | [] => none

/-- Read 1 to 6 fractional-second digits and scale to microseconds. -/
def readFrac : List Char → Option (Nat × List Char)
  | l =>
    let digits := l.takeWhile isAsciiDigit
    let rest := l.dropWhile isAsciiDigit
    if digits.length = 0 ∨ 6 < digits.length then none
    else some (digitsToNat digits * 10 ^ (6 - digits.length), rest)

/-- Read a `±HH:MM[:SS]` UTC-offset suffix; the whole input must be
consumed. Returns the offset in seconds. -/
def readOffset : List Char → Option Int
  | sign :: rest =>
    if sign = '+' ∨ sign = '-' then
      match readDigits 2 rest with
      | some (oh, rest1) =>
        match readChar ':' rest1 with
        | some rest2 =>
          match readDigits 2 rest2 with
          | some (om, rest3) =>
            let secPart : Option (Nat × List Char) :=
              match rest3 with
              | [] => some (0, [])
              | ':' :: rest4 => readDigits 2 rest4
              | _ => none
            match secPart with
            | some (os, []) =>
              if oh ≤ 23 ∧ om ≤ 59 ∧ os ≤ 59 then
                let mag : Int := oh * 3600 + om * 60 + os
                some (if sign = '-' then -mag else mag)
              else none
            | _ => none
          | none => none
        | none => none
      | none => none
    else none
  | [] => none

/-- Read the `HH:MM[:SS[.ffffff]]` time-of-day part and the optional offset;
the whole input must be consumed. Returns (microseconds of day, offset). -/
def readTime (l : List Char) : Option (Nat × Option Int) :=
  match readDigits 2 l with
  | some (h, rest1) =>
    match readChar ':' rest1 with
    | some rest2 =>
      match readDigits 2 rest2 with
      | some (mi, rest3) =>
        let secFrac : Option (Nat × Nat × List Char) :=
          match rest3 with
          | ':' :: rest4 =>
            match readDigits 2 rest4 with
            | some (s, rest5) =>
              match rest5 with
              | '.' :: rest6 =>
                (readFrac rest6).map (fun p => (s, p.1, p.2))
              | _ => some (s, 0, rest5)
            | none => none
          | _ => some (0, 0, rest3)
        match secFrac with
        | some (s, micro, rest7) =>
          if h ≤ 23 ∧ mi ≤ 59 ∧ s ≤ 59 then
            let us := ((h * 3600 + mi * 60 + s) * 1000000 + micro : Nat)
            match rest7 with
            | [] => some (us, none)
            | _ => (readOffset rest7).map (fun off => (us, some off))
          else none
        | none => none
      | none => none
    | none => none
  | none => none

/-- Python `datetime.fromisoformat`, for the extended format
`YYYY-MM-DD[THH:MM[:SS[.ffffff]]][±HH:MM[:SS]]` (the shapes the program's
input data uses; other accepted spellings are outside the model). -/
def fromisoformat (s : String) : Option PyDateTime :=
  match readDigits 4 s.data with
  | some (y, rest1) =>
    match readChar '-' rest1 with
    | some rest2 =>
      match readDigits 2 rest2 with
      | some (m, rest3) =>
        match readChar '-' rest3 with
        | some rest4 =>
          match readDigits 2 rest4 with
          | some (d, rest5) =>
            if 1 ≤ y ∧ 1 ≤ m ∧ m ≤ 12 ∧ 1 ≤ d ∧ d ≤ daysInMonth y m then
              let dayUs : Int := days_from_civil y m d * 86400000000
              match rest5 with
              | [] => some ⟨dayUs, none⟩
              | sep :: rest6 =>
                if sep = 'T' ∨ sep = ' ' then
                  (readTime rest6).map (fun p => ⟨dayUs + p.1, p.2⟩)
                else none
            else none
          | none => none
        | none => none
      | none => none
    | none => none
  | none => none

/-- Epoch-second bounds accepted by `datetime.fromtimestamp(..., tz=utc)`:
the resulting datetime must lie in `datetime.min .. datetime.max`
(years 1..9999). -/
def minEpochSec : Int := -62135596800

/-- Upper epoch-second bound, 9999-12-31T23:59:59 UTC. -/
def maxEpochSec : Int := 253402300799

/-- `datetime.fromtimestamp(v, tz=timezone.utc)` for an integral number of
seconds: the aware-UTC instant, or a failure (`OverflowError`/`ValueError`)
when the result leaves the representable year range. -/
def fromtimestampUTC (v : Int) : Option PyDateTime :=
  if minEpochSec ≤ v ∧ v ≤ maxEpochSec then some ⟨v * 1000000, some 0⟩
  else none

/-- Whether `isinstance(value, (int, float))` holds; Python `bool` is a
subclass of `int`, so JSON booleans pass the test. -/
def isinstanceNum : JValue → Bool
  | .num _ => true
  | .bool _ => true
  | _ => false

/-- `float(value)` for the values that pass `isinstanceNum` or are all-digit
strings (integral in the model). -/
def pyFloatVal : JValue → Int
  | .num n => n
  | .bool b => if b then 1 else 0
  | .str s => digitsToNat s.data
  | _ => 0

/-- Lines 98–101 of `convert.py`: a naive datetime is stamped as UTC, an
aware one is converted to UTC. -/
def tzNormalize (dt : PyDateTime) : PyDateTime :=
  match dt.tz with
  | none => ⟨dt.wall, some 0⟩
  | some off => ⟨dt.wall - off * 1000000, some 0⟩

/-- The datetime resolution of `parse_timestamp` (`convert.py` lines
78–101): the `dt` local of the source, with the default instant passed
explicitly. -/
def parse_timestamp_dt (value : JValue) (default_dt : PyDateTime) : PyDateTime :=
  match value with
  | .null => default_dt
  | _ =>
    let isDigitStr : Bool :=
      match value with
      | .str s => pyIsdigit s
      | _ => false
    let dt0 : Option PyDateTime :=
      if isinstanceNum value || isDigitStr then
        fromtimestampUTC (pyFloatVal value)
      else none
    let dt1 : Option PyDateTime :=
      match dt0, value with
      | none, .str s =>
        let raw := pyStrip s
        if raw.data = [] then none
        else
          let raw2 : String :=
            if raw.data.getLast? = some 'Z' then ⟨raw.data.dropLast ++ "+00:00".data⟩
            else raw
          fromisoformat raw2
      | d, _ => d
    tzNormalize (dt1.getD default_dt)

/-- `parse_timestamp` of `convert.py` (lines 74–104). Returns the
`(iso_value, dt)` pair of the source. -/
def parse_timestamp (value : JValue) (default_dt : PyDateTime) : String × PyDateTime :=
  let dt := parse_timestamp_dt value default_dt
  (pyReplace (isoformat dt) "+00:00" "Z", dt)


/-- Python iteration over a value (`for tag in tags`): lists yield elements,
strings yield one-character strings, dicts yield keys; other values raise
`TypeError` (modelled as an error). -/
def pyIterate : JValue → Except String (List JValue)
  | .arr l => .ok l
  | .str s => .ok (s.data.map (fun c => .str ⟨[c]⟩))
  | .obj fields => .ok (fields.map (fun p => .str p.1))
  | _ => .error "TypeError: object is not iterable"

/-- Loop body of `normalise_tags` (lines 110–120): skip non-strings, strip
(twice, as written), skip empties and exact duplicates, otherwise append to
`cleaned` and record in `seen`. -/
def normTagsGo : List JValue → List String → List String → List String
  | [], cleaned, _ => cleaned
  | tag :: rest, cleaned, seen =>
    match tag with
    | .str s =>
      let cleaned_tag := pyStrip s
      if cleaned_tag = "" then normTagsGo rest cleaned seen
      else
        let cleaned_tag2 := pyStrip cleaned_tag
        if cleaned_tag2 = "" ∨ cleaned_tag2 ∈ seen then normTagsGo rest cleaned seen
        else normTagsGo rest (cleaned ++ [cleaned_tag2]) (cleaned_tag2 :: seen)
    | _ => normTagsGo rest cleaned seen

/-- `normalise_tags` of `convert.py` (lines 107–121). -/
def normalise_tags (tags : List JValue) : List String :=
  normTagsGo tags [] []

/-- The `LinkRecord` dataclass of `convert.py`. Title, url and description
are kept as the JSON values the source assigns (Python does not enforce the
dataclass's `str` hints). -/
structure LinkRecord where
  title : JValue
  url : JValue
  description : JValue
  tags : List String
  created_dt : PyDateTime
deriving Repr

/-- The default collection name. -/
def DEFAULT_COLLECTION_NAME : String := "Hoarder Import"

/-- The `content.get("type") != "link"` test of line 137 (negated): a JSON
value equals the Python string `"link"` exactly when it is that string. -/
def isLinkType (v : JValue) : Bool :=
  match v with
  | .str t => t == "link"
  | _ => false

/-- Loop body of `collect_links` for one bookmark entry (lines 135–146):
`.ok none` when the entry is skipped, `.ok (some record)` when a usable link
is extracted, `.error` for the uncaught `AttributeError`/`TypeError` a
non-dict entry, a truthy non-dict content, or a truthy non-iterable tags
value would raise. -/
def entryStep (now_dt : PyDateTime) (entry : JValue) : Except String (Option LinkRecord) :=
  match entry with
  | .obj fields =>
    let contentRaw := dictGetJ fields "content"
    let content := if pyFalsy contentRaw then JValue.obj [] else contentRaw
    match content with
    | .obj cfields =>
      if isLinkType (dictGetJ cfields "type") then
        let url := dictGetJ cfields "url"
        if pyFalsy url then .ok none
        else
          let titleRaw := dictGetJ fields "title"
          let title := if pyFalsy titleRaw then url else titleRaw
          let noteRaw := dictGetJ fields "note"
          let description := if pyFalsy noteRaw then JValue.str "" else noteRaw
          let tagsRaw := dictGetJ fields "tags"
          let tagsVal := if pyFalsy tagsRaw then JValue.arr [] else tagsRaw
          match pyIterate tagsVal with
          | .error m => .error m
          | .ok tagList =>
            .ok (some
              { title := title
                url := url
                description := description
                tags := normalise_tags tagList
                created_dt := (parse_timestamp (dictGetJ fields "createdAt") now_dt).2 })
      else .ok none
    | _ => .error "AttributeError: content object has no attribute get"
  | _ => .error "AttributeError: entry object has no attribute get"

/-- `grouped.setdefault(name, []); grouped[name].append(record)`: append the
record to the group of `name`, creating the group at the end of the ordered
dict when absent. -/
def dictAppendRecord (grouped : List (String × List LinkRecord)) (name : String)
    (record : LinkRecord) : List (String × List LinkRecord) :=
  match grouped with
  | [] => [(name, [record])]
  | (k, rs) :: rest =>
    if k = name then (k, rs ++ [record]) :: rest
    else (k, rs) :: dictAppendRecord rest name record

/-- The `for entry in reversed(bookmarks)` loop of `collect_links`, run on an
already-reversed list. -/
def collectLoop (now_dt : PyDateTime) :
    List JValue → List (String × List LinkRecord) →
    Except String (List (String × List LinkRecord))
  | [], grouped => .ok grouped
  | entry :: rest, grouped =>
    match entryStep now_dt entry with
    | .error m => .error m
    | .ok none => collectLoop now_dt rest grouped
    | .ok (some record) =>
      collectLoop now_dt rest (dictAppendRecord grouped DEFAULT_COLLECTION_NAME record)

/-- `collect_links` of `convert.py` (lines 124–161), with the wall-clock
start `now_dt` passed explicitly. `sys.exit` sites are `.error`. -/
def collect_links (hoarder_data : JValue) (now_dt : PyDateTime) :
    Except String (List (String × List LinkRecord)) :=
  match hoarder_data with
  | .obj fields =>
    match dictFind fields "bookmarks" with
    | none => .error "The Hoarder export does not contain a 'bookmarks' key."
    | some bookmarks =>
      match bookmarks with
      | .arr bs => collectLoop now_dt bs.reverse []
      | _ => .error "'bookmarks' should be a list in the Hoarder export."
  | _ => .error "TypeError: document is not subscriptable by string"

/-- `load_base_payload` of `convert.py` (lines 164–201), with the
`datetime.now(timezone.utc)` instant passed explicitly. The `user_id`
keyword of the source is accepted and, as in the source, unused. -/
def load_base_payload (_user_id : Nat) (now : PyDateTime) : List (String × JValue) :=
  let now_iso := isoZ now
  [("name", .str ""),
   ("username", .str ""),
   ("email", .null),
   ("emailVerified", .null),
   ("unverifiedNewEmail", .null),
   ("image", .null),
   ("locale", .str "en"),
   ("parentSubscriptionId", .null),
   ("collectionOrder", .arr []),
   ("linksRouteTo", .str "ORIGINAL"),
   ("aiTaggingMethod", .str "DISABLED"),
   ("aiPredefinedTags", .arr []),
   ("aiTagExistingLinks", .bool false),
   ("theme", .str "dark"),
   ("readableFontFamily", .str "sans-serif"),
   ("readableFontSize", .str "18px"),
   ("readableLineHeight", .str "1.6"),
   ("readableLineWidth", .str "normal"),
   ("preventDuplicateLinks", .bool false),
   ("archiveAsScreenshot", .bool true),
   ("archiveAsMonolith", .bool true),
   ("archiveAsPDF", .bool true),
   ("archiveAsReadable", .bool true),
   ("archiveAsWaybackMachine", .bool false),
   ("isPrivate", .bool false),
   ("referredBy", .null),
   ("lastPickedAt", .str now_iso),
   ("acceptPromotionalEmails", .bool false),
   ("trialEndEmailSent", .bool false),
   ("createdAt", .str now_iso),
   ("updatedAt", .str now_iso),
   ("collections", .arr []),
   ("pinnedLinks", .arr []),
   ("whitelistedUsers", .arr [])]

mutual

/-- `copy.deepcopy` of a JSON value: a structurally identical fresh value
(in the pure model, equal to the input). -/
def deepcopyJ : JValue → JValue
  | .null => .null
  | .bool b => .bool b
  | .num n => .num n
  | .str s => .str s
  | .arr l => .arr (deepcopyList l)
  | .obj fields => .obj (deepcopyFields fields)

/-- Deep copy of a JSON array's elements. -/
def deepcopyList : List JValue → List JValue
  | [] => []
  | v :: rest => deepcopyJ v :: deepcopyList rest

/-- Deep copy of a JSON object's fields. -/
def deepcopyFields : List (String × JValue) → List (String × JValue)
  | [] => []
  | (k, v) :: rest => (k, deepcopyJ v) :: deepcopyFields rest

end

/-- Python `min` over the records' `created_dt` (line 221): first minimum
under datetime comparison. Only called on non-empty lists; the `[]` case is
junk. All datetimes the program compares are aware UTC; naive values are
keyed as UTC. -/
def pyMinDt : List PyDateTime → PyDateTime
  | [] => ⟨0, some 0⟩
  | d :: rest => rest.foldl (fun acc x => if dtKey x < dtKey acc then x else acc) d

/-- The JSON value of the optional collection color: the hex string, or
`None`. -/
def colorJ : Option String → JValue
  | none => .null
  | some c => .str c

/-- The `link_payload` dict literal of `convert.py` (lines 227–246). -/
def linkPayload (record : LinkRecord) (user_id link_id collection_id : Nat) : JValue :=
  let created_iso := isoZ record.created_dt
  .obj
    [("id", .num link_id),
     ("name", record.title),
     ("type", .str "url"),
     ("description", record.description),
     ("createdById", .num user_id),
     ("collectionId", .num collection_id),
     ("icon", .null),
     ("iconWeight", .null),
     ("color", .null),
     ("url", record.url),
     ("clientSide", .bool false),
     ("aiTagged", .bool false),
     ("indexVersion", .null),
     ("lastPreserved", .null),
     ("importDate", .str created_iso),
     ("createdAt", .str created_iso),
     ("updatedAt", .str created_iso),
     ("tags", .arr (record.tags.map (fun tag => .obj [("name", .str tag)])))]

/-- The inner `for record in link_records` loop of the builder (lines
224–248): emit one link dict per record, incrementing `link_id`. -/
def build_links : List LinkRecord → Nat → Nat → Nat → List JValue
  | [], _, _, _ => []
  | record :: rest, user_id, link_id, collection_id =>
    linkPayload record user_id link_id collection_id ::
      build_links rest user_id (link_id + 1) collection_id

/-- The `collection_payload` dict literal of `convert.py` (lines 250–265). -/
def collectionPayload (collection_name : String) (link_records : List LinkRecord)
    (user_id : Nat) (collection_color : Option String)
    (link_id collection_id : Nat) : JValue :=
  let earliest_dt := pyMinDt (link_records.map (·.created_dt))
  let collection_created_iso := isoZ earliest_dt
  .obj
    [("id", .num collection_id),
     ("name", .str collection_name),
     ("description", .str ""),
     ("icon", .null),
     ("iconWeight", .null),
     ("color", colorJ collection_color),
     ("parentId", .null),
     ("isPublic", .bool false),
     ("ownerId", .num user_id),
     ("createdById", .num user_id),
     ("createdAt", .str collection_created_iso),
     ("updatedAt", .str collection_created_iso),
     ("rssSubscriptions", .arr []),
     ("links", .arr (build_links link_records user_id link_id collection_id))]

/-- The outer `for collection_name, link_records in grouped_links.items()`
loop of the builder (lines 217–267): skip empty groups, emit one collection
dict per non-empty group, thread `link_id` across groups and increment
`collection_id` per collection. -/
def build_collections :
    List (String × List LinkRecord) → Nat → Option String → Nat → Nat → List JValue
  | [], _, _, _, _ => []
  | (collection_name, link_records) :: rest, user_id, collection_color, link_id,
      collection_id =>
    if link_records.isEmpty then
      build_collections rest user_id collection_color link_id collection_id
    else
      collectionPayload collection_name link_records user_id collection_color
          link_id collection_id ::
        build_collections rest user_id collection_color
          (link_id + link_records.length) (collection_id + 1)

/-- `payload[key] = value` on a dict: replace in place when the key exists,
append otherwise. -/
def dictSet : List (String × JValue) → String → JValue → List (String × JValue)
  | [], key, value => [(key, value)]
  | (k, v) :: rest, key, value =>
    if k = key then (k, value) :: rest else (k, v) :: dictSet rest key value

/-- `payload.setdefault(key, value)`: append when the key is absent. -/
def dictSetdefault (d : List (String × JValue)) (key : String) (value : JValue) :
    List (String × JValue) :=
  match dictFind d key with
  | some _ => d
  | none => dictSet d key value

/-- `build_linkwarden_payload` of `convert.py` (lines 204–272). -/
def build_linkwarden_payload (grouped_links : List (String × List LinkRecord))
    (user_id : Nat) (collection_color : Option String)
    (base_payload : List (String × JValue)) : List (String × JValue) :=
  let payload := deepcopyFields base_payload
  let collections := build_collections grouped_links user_id collection_color 1 1
  let payload := dictSet payload "collections" (.arr collections)
  let payload := dictSetdefault payload "pinnedLinks" (.arr [])
  dictSetdefault payload "whitelistedUsers" (.arr [])

/-- The outcome of opening and JSON-parsing the input file, an input to the
model of `load_json` (the file system and the `json` library are external
collaborators). -/
inductive LoadOutcome where
  | notFound : String → LoadOutcome
  | badJson : String → String → LoadOutcome
  | ok : JValue → LoadOutcome

/-- `load_json` of `convert.py` (lines 64–71): pass the parsed document
through, or terminate with the diagnostic for a missing file or invalid
JSON. -/
def load_json : LoadOutcome → Except String JValue
  | .notFound filename => .error ("Input file not found: " ++ filename)
  | .badJson path exc => .error ("Invalid JSON in " ++ path ++ ": " ++ exc)
  | .ok v => .ok v

/-- The post-load part of `main` (lines 279–291): extract, check for
emptiness, build. A `.ok` result is the document written to the output
file; `.error` terminates the process with no output written. The two
`datetime.now(timezone.utc)` calls (in `collect_links` and
`load_base_payload`) are the explicit instants `now_links` and `now_base`. -/
def run_pipeline (hoarder_data : JValue) (now_links now_base : PyDateTime)
    (user_id : Nat) (collection_color : Option String) :
    Except String (List (String × JValue)) :=
  match collect_links hoarder_data now_links with
  | .error m => .error m
  | .ok grouped_links =>
    if grouped_links.isEmpty then
      .error "No link-type bookmarks were found in the Hoarder export."
    else
      let base_payload := load_base_payload user_id now_base
      .ok (build_linkwarden_payload grouped_links user_id collection_color base_payload)

/-- `main` of `convert.py` (lines 275–295) up to the output write: load,
then run the pipeline. -/
def main_run (loaded : LoadOutcome) (now_links now_base : PyDateTime)
    (user_id : Nat) (collection_color : Option String) :
    Except String (List (String × JValue)) :=
  match load_json loaded with
  | .error m => .error m
  | .ok hoarder_data => run_pipeline hoarder_data now_links now_base user_id collection_color

/-- Field access on a JSON object value (projection used by theorem
statements). -/
def jGet (v : JValue) (key : String) : JValue :=
  match v with
  | .obj fields => dictGetJ fields key
  | _ => .null

/-- The elements of the `links` array of a collection dict. -/
def jLinks (c : JValue) : List JValue :=
  match jGet c "links" with
  | .arr l => l
  | _ => []

/-- The elements of the `collections` array of a pipeline result (empty on
error). -/
def pipelineCollections (r : Except String (List (String × JValue))) : List JValue :=
  match r with
  | .ok payload =>
    match dictFind payload "collections" with
    | some (.arr l) => l
    | _ => []
  | .error _ => []

/-- The C1 source document: two link bookmarks, the first with a title and
an ISO `createdAt`, the second with no title and a numeric `createdAt`. -/
def c1doc : JValue :=
  .obj [("bookmarks", .arr
    [.obj [("content", .obj [("type", .str "link"), ("url", .str "https://a")]),
           ("title", .str "A"), ("createdAt", .str "2023-01-01T00:00:00Z")],
     .obj [("content", .obj [("type", .str "link"), ("url", .str "https://b")]),
           ("createdAt", .num 1700000000)]])]

/-- The pipeline result on the C1 document (run instants are arbitrary
concrete values; the document's own timestamps make them irrelevant to the
claim). -/
def c1result : Except String (List (String × JValue)) :=
  run_pipeline c1doc ⟨0, some 0⟩ ⟨0, some 0⟩ 1 none

/-- C1: the pipeline on the two-bookmark source document produces exactly
one collection, named "Hoarder Import" with id 1, holding exactly two links
with ids 1 and 2 and titles "https://b" (defaulted to its URL) and "A" (the
source is iterated newest-entry-last, so id 1 carries the defaulted title).
-/
theorem claim_C1 :
    (pipelineCollections c1result).map (fun c => (jGet c "id", jGet c "name")) =
        [(JValue.num 1, JValue.str "Hoarder Import")] ∧
      ((pipelineCollections c1result).flatMap jLinks).map
          (fun l => (jGet l "id", jGet l "name")) =
        [(JValue.num 1, JValue.str "https://b"), (JValue.num 2, JValue.str "A")] :=
  ⟨rfl, rfl⟩

/-- Dropping twice is dropping once. -/
theorem dropWhile_dropWhile (p : Char → Bool) (l : List Char) :
    List.dropWhile p (List.dropWhile p l) = List.dropWhile p l := by
  induction l with
  | nil => rfl
  | cons c t ih =>
    by_cases hc : p c
    · simp [List.dropWhile_cons, hc, ih]
    · simp [List.dropWhile_cons, hc]

/-- If a list is `dropWhile`-fixed, so is any decomposition's front part. -/
theorem dropWhile_eq_self_of_append (p : Char → Bool) (s t : List Char)
    (h : List.dropWhile p (s ++ t) = s ++ t) : List.dropWhile p s = s := by
  cases s with
  | nil => rfl
  | cons c s2 =>
    by_cases hc : p c
    · exfalso
      rw [List.cons_append, List.dropWhile_cons, if_pos hc] at h
      have hle := (List.dropWhile_suffix p (l := s2 ++ t)).length_le
      rw [h] at hle
      simp [List.length_append] at hle
    · simp [List.dropWhile_cons, hc]

/-- Stripping is idempotent on character lists. -/
theorem stripChars_idem (l : List Char) : stripChars (stripChars l) = stripChars l := by
  unfold stripChars
  set p := pySpace with hp
  set a := List.dropWhile p l with ha
  set b := List.dropWhile p a.reverse with hb
  have hbfix : List.dropWhile p b = b := by
    rw [hb]; exact dropWhile_dropWhile p a.reverse
  have hafix : List.dropWhile p a = a := by
    rw [ha]; exact dropWhile_dropWhile p l
  have hdecomp : a.reverse = List.takeWhile p a.reverse ++ b := by
    rw [hb]; exact (List.takeWhile_append_dropWhile p a.reverse).symm
  have hasplit : a = b.reverse ++ (List.takeWhile p a.reverse).reverse := by
    have := congrArg List.reverse hdecomp
    simpa using this
  have hsfix : List.dropWhile p b.reverse = b.reverse := by
    apply dropWhile_eq_self_of_append p b.reverse (List.takeWhile p a.reverse).reverse
    rw [← hasplit]; exact hafix
  rw [hsfix]
  simp [hbfix]

/-- Python `strip` is idempotent. -/
theorem pyStrip_idem (s : String) : pyStrip (pyStrip s) = pyStrip s := by
  unfold pyStrip
  exact congrArg String.mk (stripChars_idem s.data)

/-- Invariant of the `normalise_tags` loop: starting from a clean
accumulator, the output consists of stripped non-empty strings with no
duplicates. -/
theorem normTagsGo_inv (tags : List JValue) :
    ∀ cleaned seen : List String,
      (∀ s ∈ cleaned, pyStrip s = s ∧ s ≠ "") → cleaned.Nodup →
      (∀ s ∈ cleaned, s ∈ seen) →
      (∀ s ∈ normTagsGo tags cleaned seen, pyStrip s = s ∧ s ≠ "") ∧
        (normTagsGo tags cleaned seen).Nodup := by
  induction tags with
  | nil => intro cleaned seen h1 h2 _; exact ⟨h1, h2⟩
  | cons tag rest ih =>
    intro cleaned seen h1 h2 h3
    match tag with
    | .null | .bool _ | .num _ | .arr _ | .obj _ =>
      exact ih cleaned seen h1 h2 h3
    | .str s =>
      simp only [normTagsGo]
      by_cases he : pyStrip s = ""
      · rw [if_pos he]; exact ih cleaned seen h1 h2 h3
      · rw [if_neg he]
        by_cases hg : pyStrip (pyStrip s) = "" ∨ pyStrip (pyStrip s) ∈ seen
        · rw [if_pos hg]; exact ih cleaned seen h1 h2 h3
        · rw [if_neg hg]
          push_neg at hg
          apply ih (cleaned ++ [pyStrip (pyStrip s)]) (pyStrip (pyStrip s) :: seen)
          · intro x hx
            rcases List.mem_append.mp hx with hx | hx
            · exact h1 x hx
            · rcases List.mem_singleton.mp hx with rfl
              exact ⟨pyStrip_idem (pyStrip s), hg.1⟩
          · apply List.Nodup.append h2 (List.nodup_singleton _)
            intro x hx hx2
            rcases List.mem_singleton.mp hx2 with rfl
            exact hg.2 (h3 _ hx)
          · intro x hx
            rcases List.mem_append.mp hx with hx | hx
            · exact List.mem_cons_of_mem _ (h3 x hx)
            · rcases List.mem_singleton.mp hx with rfl
              exact List.mem_cons_self _ _

/-- The `normalise_tags` loop is the identity on a list of stripped,
non-empty, duplicate-free strings disjoint from `seen`. -/
theorem normTagsGo_fixed (l : List String) :
    ∀ cleaned seen : List String,
      (∀ s ∈ l, pyStrip s = s ∧ s ≠ "") → l.Nodup → (∀ s ∈ l, s ∉ seen) →
      normTagsGo (l.map JValue.str) cleaned seen = cleaned ++ l := by
  induction l with
  | nil => intro cleaned seen _ _ _; simp [normTagsGo]
  | cons s rest ih =>
    intro cleaned seen h1 h2 h3
    have hs := h1 s (List.mem_cons_self _ _)
    simp only [List.map_cons, normTagsGo, hs.1]
    rw [if_neg hs.2]
    rw [if_neg (by
      push_neg
      exact ⟨hs.2, h3 s (List.mem_cons_self _ _)⟩)]
    rw [ih (cleaned ++ [s]) (s :: seen)
      (fun x hx => h1 x (List.mem_cons_of_mem _ hx))
      (List.Nodup.of_cons h2)
      (fun x hx => by
        intro hmem
        rcases List.mem_cons.mp hmem with rfl | hmem
        · exact (List.nodup_cons.mp h2).1 hx
        · exact h3 x (List.mem_cons_of_mem _ hx) hmem)]
    simp

/-- C8: tag normalization is idempotent — normalizing the normalizer's own
output (injected back as JSON strings) returns it unchanged. -/
theorem claim_C8 (tags : List JValue) :
    normalise_tags ((normalise_tags tags).map JValue.str) = normalise_tags tags := by
  have hinv := normTagsGo_inv tags [] [] (by simp) List.nodup_nil (by simp)
  have hfix := normTagsGo_fixed (normTagsGo tags [] []) [] [] hinv.1 hinv.2 (by simp)
  simpa [normalise_tags] using hfix

/-- Decimal digit characters are not `'+'`. -/
theorem digitChar_ne_plus (m : Nat) (hm : m < 10) : Nat.digitChar m ≠ '+' := by
  interval_cases m <;> decide

/-- No `'+'` appears in a digit rendering. -/
theorem natDigitsAux_ne_plus (f : Nat) : ∀ n, '+' ∉ natDigitsAux f n := by
  induction f with
  | zero => intro n; simp [natDigitsAux]
  | succ f ih =>
    intro n
    simp only [natDigitsAux]
    by_cases h : n < 10
    · rw [if_pos h]
      simp only [List.mem_singleton]
      exact fun hc => digitChar_ne_plus n h hc.symm
    · rw [if_neg h]
      intro hc
      rcases List.mem_append.mp hc with hc | hc
      · exact ih (n / 10) hc
      · rcases List.mem_singleton.mp hc with hc
        exact digitChar_ne_plus (n % 10) (Nat.mod_lt n (by norm_num)) hc.symm

/-- No `'+'` appears in a padded number. -/
theorem padNum_ne_plus (w n : Nat) : '+' ∉ padNum w n := by
  intro hc
  rcases List.mem_append.mp hc with hc | hc
  · exact absurd (List.eq_of_mem_replicate hc) (by decide)
  · exact natDigitsAux_ne_plus (n + 1) n hc

/-- No `'+'` appears in the optional fractional-second tail. -/
theorem fracTail_ne_plus (micro : Nat) :
    '+' ∉ (if micro = 0 then ([] : List Char) else '.' :: padNum 6 micro) := by
  split
  · exact List.not_mem_nil '+'
  · intro hc
    rcases List.mem_cons.mp hc with hc | hc
    · exact absurd hc (by decide)
    · exact padNum_ne_plus _ _ hc

/-- No `'+'` appears in the date-and-time part of an iso rendering. -/
theorem civilTimeChars_ne_plus (wall : Int) : '+' ∉ civilTimeChars wall := by
  intro hc
  simp only [civilTimeChars, List.mem_append, List.mem_cons] at hc
  rcases hc with ((((((hc | hc | hc) | hc | hc) | hc | hc) | hc | hc) | hc | hc) | hc)
  · exact padNum_ne_plus _ _ hc
  · exact absurd hc (by decide)
  · exact padNum_ne_plus _ _ hc
  · exact absurd hc (by decide)
  · exact padNum_ne_plus _ _ hc
  · exact absurd hc (by decide)
  · exact padNum_ne_plus _ _ hc
  · exact absurd hc (by decide)
  · exact padNum_ne_plus _ _ hc
  · exact absurd hc (by decide)
  · exact padNum_ne_plus _ _ hc
  · exact fracTail_ne_plus _ hc

/-- Replacement on the empty list. -/
theorem replaceGo_nil (pat rep : List Char) (f : Nat) : replaceGo pat rep f [] = [] := by
  cases f <;> rfl

/-- Replacing `"+00:00"` by `"Z"` in a plus-free string followed by the
`"+00:00"` suffix rewrites exactly the suffix. -/
theorem replaceGo_plus_suffix (l : List Char) (hl : '+' ∉ l) :
    ∀ f, l.length + 6 ≤ f →
      replaceGo "+00:00".data "Z".data f (l ++ "+00:00".data) = l ++ ['Z'] := by
  induction l with
  | nil =>
    intro f hf
    match f, hf with
    | f' + 1, _ =>
      show 'Z' :: replaceGo "+00:00".data "Z".data f' [] = ['Z']
      rw [replaceGo_nil]
  | cons c t ih =>
    intro f hf
    have hc : c ≠ '+' := fun h => hl (h ▸ List.mem_cons_self c t)
    match f, hf with
    | f' + 1, hf =>
      have hstep :
          replaceGo "+00:00".data "Z".data (f' + 1) ((c :: t) ++ "+00:00".data) =
            c :: replaceGo "+00:00".data "Z".data f' (t ++ "+00:00".data) := by
        simp only [List.cons_append, replaceGo, stripPfx]
        rw [if_neg (fun h => hc h.symm)]
        rfl
      rw [hstep, ih (fun h => hl (List.mem_cons_of_mem c h)) f' (by
        simp only [List.length_cons] at hf
        omega)]
      rfl

/-- Unfolding equation for `pyReplace` at the character level. -/
theorem pyReplace_data (s pat rep : String) :
    (pyReplace s pat rep).data = replaceGo pat.data rep.data s.data.length s.data := rfl

/-- The emitted canonical string of an aware-UTC datetime is the
date-and-time part followed by `'Z'`. -/
theorem isoZ_utc (dt : PyDateTime) (h : dt.tz = some 0) :
    (isoZ dt).data = civilTimeChars dt.wall ++ ['Z'] := by
  have hoff : offsetChars dt.tz = "+00:00".data := by rw [h]; decide
  have hdata : (isoformat dt).data = civilTimeChars dt.wall ++ "+00:00".data := by
    rw [← hoff]; rfl
  unfold isoZ
  rw [pyReplace_data, hdata]
  apply replaceGo_plus_suffix (civilTimeChars dt.wall) (civilTimeChars_ne_plus dt.wall)
  have h6 : ("+00:00".data).length = 6 := rfl
  rw [List.length_append, h6]

/-- `parse_timestamp` returns the canonical rendering of the datetime it
returns. -/
theorem parse_timestamp_eq (v : JValue) (d : PyDateTime) :
    parse_timestamp v d = (isoZ (parse_timestamp v d).2, (parse_timestamp v d).2) := by
  cases v <;> rfl

/-- Lines 98–101 always produce an aware-UTC datetime. -/
theorem tzNormalize_tz (dt : PyDateTime) : (tzNormalize dt).tz = some 0 := by
  rcases dt with ⟨w, tz⟩
  cases tz <;> rfl

/-- The datetime returned by `parse_timestamp` is aware UTC, except that an
absent value returns the default instant unnormalized. -/
theorem parse_timestamp_tz (v : JValue) (d : PyDateTime)
    (hv : v ≠ JValue.null ∨ d.tz = some 0) :
    ((parse_timestamp v d).2).tz = some 0 := by
  cases v with
  | null =>
    rcases hv with hv | hv
    · exact absurd rfl hv
    · exact hv
  | bool b => exact tzNormalize_tz _
  | num n => exact tzNormalize_tz _
  | str s => exact tzNormalize_tz _
  | arr l => exact tzNormalize_tz _
  | obj fields => exact tzNormalize_tz _

/-- C2 (amended): for every input value and default instant — with the
default timezone-aware UTC when the value is absent, since an absent value
returns the default unnormalized — the normalizer returns an aware-UTC
instant, and its string form ends in `'Z'` and never contains `"+00:00"`. -/
theorem claim_C2 (v : JValue) (d : PyDateTime)
    (hv : v ≠ JValue.null ∨ d.tz = some 0) :
    ((parse_timestamp v d).2).tz = some 0 ∧
    ((parse_timestamp v d).1).data.getLast? = some 'Z' ∧
    ¬ ("+00:00".data <:+: ((parse_timestamp v d).1).data) := by
  have htz := parse_timestamp_tz v d hv
  have hfst : (parse_timestamp v d).1 = isoZ (parse_timestamp v d).2 := by
    have hc := congrArg Prod.fst (parse_timestamp_eq v d)
    simpa using hc
  refine ⟨htz, ?_, ?_⟩
  · rw [hfst, isoZ_utc _ htz]
    exact List.getLast?_concat _
  · rw [hfst, isoZ_utc _ htz]
    intro hinf
    have hplus : '+' ∈ civilTimeChars (parse_timestamp v d).2.wall ++ ['Z'] :=
      hinf.subset (by decide)
    rcases List.mem_append.mp hplus with hp | hp
    · exact civilTimeChars_ne_plus _ hp
    · exact absurd (List.mem_singleton.mp hp) (by decide)

/-- C2 counterexample: as literally stated — for every default instant —
the claim fails: an absent value with a naive default yields a naive
result whose string form has no `'Z'` suffix. -/
theorem claim_C2_counterexample :
    (parse_timestamp JValue.null ⟨0, none⟩).2.tz = none ∧
    (parse_timestamp JValue.null ⟨0, none⟩).1.data.getLast? = some '0' :=
  ⟨rfl, rfl⟩

/-- C2 witness: the amended theorem applied at a concrete numeric input with
a naive default. -/
theorem claim_C2_witness :
    (JValue.num 0 ≠ JValue.null ∨ (⟨0, none⟩ : PyDateTime).tz = some 0) ∧
    ((parse_timestamp (JValue.num 0) ⟨0, none⟩).2.tz = some 0 ∧
     (parse_timestamp (JValue.num 0) ⟨0, none⟩).1.data.getLast? = some 'Z' ∧
     ¬ ("+00:00".data <:+: ((parse_timestamp (JValue.num 0) ⟨0, none⟩).1).data)) :=
  ⟨Or.inl (fun hh => JValue.noConfusion hh),
   claim_C2 (JValue.num 0) ⟨0, none⟩ (Or.inl (fun hh => JValue.noConfusion hh))⟩

/-- `dropWhile` is the identity on lists with no matching characters. -/
theorem dropWhile_eq_self_of_none (p : Char → Bool) (l : List Char)
    (h : ∀ c ∈ l, p c = false) : l.dropWhile p = l := by
  cases l with
  | nil => rfl
  | cons c t => simp [List.dropWhile_cons, h c (List.mem_cons_self c t)]

/-- Stripping is the identity on whitespace-free character lists. -/
theorem stripChars_eq_self (l : List Char) (h : ∀ c ∈ l, pySpace c = false) :
    stripChars l = l := by
  unfold stripChars
  rw [dropWhile_eq_self_of_none pySpace l h,
    dropWhile_eq_self_of_none pySpace l.reverse
      (fun c hc => h c (List.mem_reverse.mp hc)),
    List.reverse_reverse]

/-- Digits are not whitespace. -/
theorem digit_not_space (c : Char) (h : isAsciiDigit c = true) : pySpace c = false := by
  revert h
  simp only [isAsciiDigit, pySpace, Bool.and_eq_true]
  rintro ⟨h1, h2⟩
  simp only [Bool.or_eq_false_iff]
  refine ⟨⟨⟨⟨⟨?_, ?_⟩, ?_⟩, ?_⟩, ?_⟩, ?_⟩ <;>
    · simp only [decide_eq_false_iff_not]
      intro he
      subst he
      simp_all

/-- Stripping is the identity on all-digit strings. -/
theorem pyStrip_of_digits (s : String) (h : pyIsdigit s = true) : pyStrip s = s := by
  simp only [pyIsdigit, Bool.and_eq_true] at h
  rcases h with ⟨_, h2⟩
  have hall := List.all_eq_true.mp h2
  have : stripChars s.data = s.data :=
    stripChars_eq_self s.data (fun c hc => digit_not_space c (hall c hc))
  unfold pyStrip
  rw [this]

/-- The remainder returned by `readDigits` is drawn from the input. -/
theorem readDigits_rest (n : Nat) : ∀ (l : List Char) (v : Nat) (rest : List Char),
    readDigits n l = some (v, rest) → ∀ c ∈ rest, c ∈ l := by
  induction n with
  | zero =>
    intro l v rest h c hc
    simp only [readDigits, Option.some.injEq, Prod.mk.injEq] at h
    rw [h.2]
    exact hc
  | succ n ih =>
    intro l v rest h c hc
    cases l with
    | nil => simp [readDigits] at h
    | cons a t =>
      simp only [readDigits] at h
      by_cases ha : isAsciiDigit a = true
      · rw [if_pos ha] at h
        rcases Option.map_eq_some'.mp h with ⟨p, hp, hpe⟩
        have := ih t p.1 p.2 (by rw [hp])
        have hc2 : c ∈ p.2 := by
          have : rest = p.2 := by
            have := congrArg Prod.snd hpe.symm
            simpa using this
          rw [← this]; exact hc
        exact List.mem_cons_of_mem a (this c hc2)
      · rw [if_neg ha] at h
        exact absurd h (by simp)

/-- The iso parser rejects every all-digit string (the `'-'` separator is
missing). -/
theorem fromisoformat_digits (s : String) (h : ∀ c ∈ s.data, isAsciiDigit c = true) :
    fromisoformat s = none := by
  unfold fromisoformat
  cases hrd : readDigits 4 s.data with
  | none => rfl
  | some p =>
    rcases p with ⟨y, rest1⟩
    cases rest1 with
    | nil => rfl
    | cons c t =>
      have hc : isAsciiDigit c = true :=
        h c (readDigits_rest 4 s.data y (c :: t) hrd c (List.mem_cons_self c t))
      have hne : c ≠ '-' := by
        intro he
        rw [he] at hc
        exact absurd hc (by decide)
      simp only [readChar]
      rw [if_neg (fun he => hne he)]

/-- C3: a numeric value or all-digit string inside the representable epoch
range is interpreted as seconds since the Unix epoch in UTC; on overflow the
value falls through the string-parsing step (which rejects digit strings)
and the normalized default instant is returned. -/
theorem claim_C3 :
    (∀ (i : Int) (d : PyDateTime), minEpochSec ≤ i → i ≤ maxEpochSec →
      (parse_timestamp (.num i) d).2 = ⟨i * 1000000, some 0⟩) ∧
    (∀ (s : String) (d : PyDateTime), pyIsdigit s = true →
      (digitsToNat s.data : Int) ≤ maxEpochSec →
      (parse_timestamp (.str s) d).2 = ⟨(digitsToNat s.data : Int) * 1000000, some 0⟩) ∧
    (∀ (i : Int) (d : PyDateTime), i < minEpochSec ∨ maxEpochSec < i →
      (parse_timestamp (.num i) d).2 = tzNormalize d) ∧
    (∀ (s : String) (d : PyDateTime), pyIsdigit s = true →
      maxEpochSec < (digitsToNat s.data : Int) →
      (parse_timestamp (.str s) d).2 = tzNormalize d) := by
  refine ⟨?_, ?_, ?_, ?_⟩
  · intro i d h1 h2
    have hft : fromtimestampUTC i = some ⟨i * 1000000, some 0⟩ := by
      simp [fromtimestampUTC, h1, h2]
    show parse_timestamp_dt (.num i) d = _
    simp [parse_timestamp_dt, isinstanceNum, pyFloatVal, hft, tzNormalize]
  · intro s d hs hrange
    have h1 : minEpochSec ≤ (digitsToNat s.data : Int) := by
      have := Int.natCast_nonneg (digitsToNat s.data)
      simp only [minEpochSec]
      omega
    have hft : fromtimestampUTC (digitsToNat s.data) =
        some ⟨(digitsToNat s.data : Int) * 1000000, some 0⟩ := by
      simp [fromtimestampUTC, h1, hrange]
    show parse_timestamp_dt (.str s) d = _
    simp [parse_timestamp_dt, isinstanceNum, pyFloatVal, hs, hft, tzNormalize]
  · intro i d h
    have hft : fromtimestampUTC i = none := by
      unfold fromtimestampUTC
      rw [if_neg]
      rintro ⟨a, b⟩
      simp only [minEpochSec, maxEpochSec] at a b h
      rcases h with h | h <;> omega
    show parse_timestamp_dt (.num i) d = _
    simp [parse_timestamp_dt, isinstanceNum, pyFloatVal, hft]
  · intro s d hs hrange
    have hft : fromtimestampUTC (digitsToNat s.data) = none := by
      unfold fromtimestampUTC
      rw [if_neg]
      rintro ⟨a, b⟩
      omega
    have hstrip : pyStrip s = s := pyStrip_of_digits s hs
    have hs2 := hs
    simp only [pyIsdigit, Bool.and_eq_true] at hs2
    rcases hs2 with ⟨hne, hall⟩
    have hallm := List.all_eq_true.mp hall
    have hnonnil : s.data ≠ [] := by
      intro he
      rw [he] at hne
      exact absurd hne (by decide)
    have hlast : s.data.getLast? ≠ some 'Z' := by
      rw [List.getLast?_eq_getLast s.data hnonnil]
      intro he
      have hmem := List.getLast_mem hnonnil
      have := hallm _ hmem
      rw [Option.some.injEq] at he
      rw [he] at this
      exact absurd this (by decide)
    have hiso : fromisoformat s = none := fromisoformat_digits s hallm
    show parse_timestamp_dt (.str s) d = _
    simp [parse_timestamp_dt, isinstanceNum, pyFloatVal, hs, hft, hstrip, hnonnil,
      hlast, hiso]

/-- C3 witness: the theorem applied at a concrete in-range number, an
in-range digit string, an overflowing number and an overflowing digit
string. -/
theorem claim_C3_witness :
    (minEpochSec ≤ (1700000000 : Int) ∧ (1700000000 : Int) ≤ maxEpochSec ∧
      (parse_timestamp (.num 1700000000) ⟨3, none⟩).2 = ⟨1700000000 * 1000000, some 0⟩) ∧
    (pyIsdigit "1700000000" = true ∧ (digitsToNat "1700000000".data : Int) ≤ maxEpochSec ∧
      (parse_timestamp (.str "1700000000") ⟨3, some 0⟩).2 =
        ⟨(digitsToNat "1700000000".data : Int) * 1000000, some 0⟩) ∧
    (maxEpochSec < (253402300800 : Int) ∧
      (parse_timestamp (.num 253402300800) ⟨3, none⟩).2 = tzNormalize ⟨3, none⟩) ∧
    (pyIsdigit "999999999999" = true ∧
      maxEpochSec < (digitsToNat "999999999999".data : Int) ∧
      (parse_timestamp (.str "999999999999") ⟨3, none⟩).2 = tzNormalize ⟨3, none⟩) :=
  ⟨⟨by decide, by decide, claim_C3.1 1700000000 ⟨3, none⟩ (by decide) (by decide)⟩,
   ⟨by decide, by decide, claim_C3.2.1 "1700000000" ⟨3, some 0⟩ (by decide) (by decide)⟩,
   ⟨by decide, claim_C3.2.2.1 253402300800 ⟨3, none⟩ (Or.inr (by decide))⟩,
   ⟨by decide, by decide, claim_C3.2.2.2 "999999999999" ⟨3, none⟩ (by decide) (by decide)⟩⟩

/-- C4: each failure case — missing input file, invalid JSON, missing
`bookmarks` key, non-list `bookmarks`, and no usable link bookmark — ends
the run as `.error` (the process exits non-zero and, in the model, a
`.error` result writes no output file), and the five diagnostics are
pairwise distinct for all interpolated values. -/
theorem claim_C4 :
    (∀ (f : String) (nl nb : PyDateTime) (uid : Nat) (color : Option String),
      main_run (.notFound f) nl nb uid color = .error ("Input file not found: " ++ f)) ∧
    (∀ (p m : String) (nl nb : PyDateTime) (uid : Nat) (color : Option String),
      main_run (.badJson p m) nl nb uid color =
        .error ("Invalid JSON in " ++ p ++ ": " ++ m)) ∧
    (∀ (fields : List (String × JValue)) (nl nb : PyDateTime) (uid : Nat)
        (color : Option String), dictFind fields "bookmarks" = none →
      main_run (.ok (.obj fields)) nl nb uid color =
        .error "The Hoarder export does not contain a 'bookmarks' key.") ∧
    (∀ (fields : List (String × JValue)) (v : JValue) (nl nb : PyDateTime) (uid : Nat)
        (color : Option String), dictFind fields "bookmarks" = some v →
      (∀ l, v ≠ .arr l) →
      main_run (.ok (.obj fields)) nl nb uid color =
        .error "'bookmarks' should be a list in the Hoarder export.") ∧
    (∀ (doc : JValue) (nl nb : PyDateTime) (uid : Nat) (color : Option String),
      collect_links doc nl = .ok [] →
      main_run (.ok doc) nl nb uid color =
        .error "No link-type bookmarks were found in the Hoarder export.") ∧
    (∀ f p m : String,
      "Input file not found: " ++ f ≠ "Invalid JSON in " ++ p ++ ": " ++ m) ∧
    (∀ f : String, "Input file not found: " ++ f ≠
      "The Hoarder export does not contain a 'bookmarks' key.") ∧
    (∀ f : String, "Input file not found: " ++ f ≠
      "'bookmarks' should be a list in the Hoarder export.") ∧
    (∀ f : String, "Input file not found: " ++ f ≠
      "No link-type bookmarks were found in the Hoarder export.") ∧
    (∀ p m : String, "Invalid JSON in " ++ p ++ ": " ++ m ≠
      "The Hoarder export does not contain a 'bookmarks' key.") ∧
    (∀ p m : String, "Invalid JSON in " ++ p ++ ": " ++ m ≠
      "'bookmarks' should be a list in the Hoarder export.") ∧
    (∀ p m : String, "Invalid JSON in " ++ p ++ ": " ++ m ≠
      "No link-type bookmarks were found in the Hoarder export.") ∧
    ("The Hoarder export does not contain a 'bookmarks' key." ≠
      "'bookmarks' should be a list in the Hoarder export.") ∧
    ("The Hoarder export does not contain a 'bookmarks' key." ≠
      "No link-type bookmarks were found in the Hoarder export.") ∧
    ("'bookmarks' should be a list in the Hoarder export." ≠
      "No link-type bookmarks were found in the Hoarder export.") := by
  refine ⟨?_, ?_, ?_, ?_, ?_, ?_, ?_, ?_, ?_, ?_, ?_, ?_, ?_, ?_, ?_⟩
  · intro f nl nb uid color
    rfl
  · intro p m nl nb uid color
    rfl
  · intro fields nl nb uid color h
    simp [main_run, load_json, run_pipeline, collect_links, h]
  · intro fields v nl nb uid color h1 hv
    cases v with
    | arr l => exact absurd rfl (hv l)
    | null => simp [main_run, load_json, run_pipeline, collect_links, h1]
    | bool b => simp [main_run, load_json, run_pipeline, collect_links, h1]
    | num n => simp [main_run, load_json, run_pipeline, collect_links, h1]
    | str s => simp [main_run, load_json, run_pipeline, collect_links, h1]
    | obj fs => simp [main_run, load_json, run_pipeline, collect_links, h1]
  · intro doc nl nb uid color h
    simp [main_run, load_json, run_pipeline, h]
  · intro f p m h
    have hd : 'I' :: 'n' :: 'p' :: ("ut file not found: ".data ++ f.data) =
        'I' :: 'n' :: 'v' :: ("alid JSON in ".data ++ p.data ++ ": ".data ++ m.data) :=
      congrArg String.data h
    simp at hd
  · intro f h
    have hd : 'I' :: ("nput file not found: ".data ++ f.data) =
        'T' :: "he Hoarder export does not contain a 'bookmarks' key.".data :=
      congrArg String.data h
    simp at hd
  · intro f h
    have hd : 'I' :: ("nput file not found: ".data ++ f.data) =
        '\'' :: "bookmarks' should be a list in the Hoarder export.".data :=
      congrArg String.data h
    simp at hd
  · intro f h
    have hd : 'I' :: ("nput file not found: ".data ++ f.data) =
        'N' :: "o link-type bookmarks were found in the Hoarder export.".data :=
      congrArg String.data h
    simp at hd
  · intro p m h
    have hd : 'I' :: ("nvalid JSON in ".data ++ p.data ++ ": ".data ++ m.data) =
        'T' :: "he Hoarder export does not contain a 'bookmarks' key.".data :=
      congrArg String.data h
    simp at hd
  · intro p m h
    have hd : 'I' :: ("nvalid JSON in ".data ++ p.data ++ ": ".data ++ m.data) =
        '\'' :: "bookmarks' should be a list in the Hoarder export.".data :=
      congrArg String.data h
    simp at hd
  · intro p m h
    have hd : 'I' :: ("nvalid JSON in ".data ++ p.data ++ ": ".data ++ m.data) =
        'N' :: "o link-type bookmarks were found in the Hoarder export.".data :=
      congrArg String.data h
    simp at hd
  · decide
  · decide
  · decide

/-- C4 witness: the theorem applied at concrete inputs for each failure
case. -/
theorem claim_C4_witness :
    (main_run (.notFound "in.json") ⟨0, some 0⟩ ⟨0, some 0⟩ 1 none =
      .error ("Input file not found: " ++ "in.json")) ∧
    (main_run (.badJson "in.json" "bad") ⟨0, some 0⟩ ⟨0, some 0⟩ 1 none =
      .error ("Invalid JSON in " ++ "in.json" ++ ": " ++ "bad")) ∧
    (dictFind [] "bookmarks" = none ∧
      main_run (.ok (.obj [])) ⟨0, some 0⟩ ⟨0, some 0⟩ 1 none =
        .error "The Hoarder export does not contain a 'bookmarks' key.") ∧
    (dictFind [("bookmarks", .str "x")] "bookmarks" = some (.str "x") ∧
      main_run (.ok (.obj [("bookmarks", .str "x")])) ⟨0, some 0⟩ ⟨0, some 0⟩ 1 none =
        .error "'bookmarks' should be a list in the Hoarder export.") ∧
    (collect_links (.obj [("bookmarks", .arr [])]) ⟨0, some 0⟩ = .ok [] ∧
      main_run (.ok (.obj [("bookmarks", .arr [])])) ⟨0, some 0⟩ ⟨0, some 0⟩ 1 none =
        .error "No link-type bookmarks were found in the Hoarder export.") ∧
    ("Input file not found: " ++ "a" ≠ "Invalid JSON in " ++ "b" ++ ": " ++ "c") :=
  ⟨claim_C4.1 "in.json" ⟨0, some 0⟩ ⟨0, some 0⟩ 1 none,
   claim_C4.2.1 "in.json" "bad" ⟨0, some 0⟩ ⟨0, some 0⟩ 1 none,
   ⟨rfl, claim_C4.2.2.1 [] ⟨0, some 0⟩ ⟨0, some 0⟩ 1 none rfl⟩,
   ⟨rfl, claim_C4.2.2.2.1 [("bookmarks", .str "x")] (.str "x") ⟨0, some 0⟩ ⟨0, some 0⟩
      1 none rfl (fun l hl => JValue.noConfusion hl)⟩,
   ⟨rfl, claim_C4.2.2.2.2.1 (.obj [("bookmarks", .arr [])]) ⟨0, some 0⟩ ⟨0, some 0⟩
      1 none rfl⟩,
   claim_C4.2.2.2.2.2.1 "a" "b" "c"⟩

/-- The record an entry contributes: `some` exactly when the entry is a
usable link (skips and crashes give `none`). -/
def entryRecord (now : PyDateTime) (e : JValue) : Option LinkRecord :=
  match entryStep now e with
  | .ok (some r) => some r
  | _ => none

/-- The grouping built from the (already reversed) usable records: empty
when there are none, otherwise the single default-named group. -/
def groupingOf (l : List LinkRecord) : List (String × List LinkRecord) :=
  if l.isEmpty then [] else [(DEFAULT_COLLECTION_NAME, l)]

/-- One functional step of the `collect_links` loop. -/
def collectStep (now : PyDateTime) (a : List (String × List LinkRecord)) (e : JValue) :
    List (String × List LinkRecord) :=
  match entryRecord now e with
  | some r => dictAppendRecord a DEFAULT_COLLECTION_NAME r
  | none => a

/-- When no entry crashes, the loop is the fold of `collectStep`. -/
theorem collectLoop_ok (now : PyDateTime) (l : List JValue) :
    ∀ acc, (∀ e ∈ l, (entryStep now e).isOk = true) →
      collectLoop now l acc = .ok (l.foldl (collectStep now) acc) := by
  induction l with
  | nil => intro acc _; rfl
  | cons e rest ih =>
    intro acc h
    cases hes : entryStep now e with
    | error m =>
      have := h e (List.mem_cons_self e rest)
      rw [hes] at this
      exact absurd this (by simp [Except.isOk, Except.toBool])
    | ok o =>
      cases o with
      | none =>
        simp only [collectLoop, hes, List.foldl_cons, collectStep, entryRecord]
        exact ih acc (fun x hx => h x (List.mem_cons_of_mem e hx))
      | some r =>
        simp only [collectLoop, hes, List.foldl_cons, collectStep, entryRecord]
        exact ih _ (fun x hx => h x (List.mem_cons_of_mem e hx))

/-- Folding from the single default group appends the extracted records in
iteration order. -/
theorem foldl_collectStep_single (now : PyDateTime) (l : List JValue) :
    ∀ rs, l.foldl (collectStep now) [(DEFAULT_COLLECTION_NAME, rs)] =
      [(DEFAULT_COLLECTION_NAME, rs ++ l.filterMap (entryRecord now))] := by
  induction l with
  | nil => intro rs; simp
  | cons e rest ih =>
    intro rs
    cases her : entryRecord now e with
    | none => simp [collectStep, her, ih rs, List.filterMap_cons]
    | some r =>
      have hstep : collectStep now [(DEFAULT_COLLECTION_NAME, rs)] e =
          [(DEFAULT_COLLECTION_NAME, rs ++ [r])] := by
        simp [collectStep, her, dictAppendRecord]
      simp only [List.foldl_cons, hstep, ih (rs ++ [r]), List.filterMap_cons, her]
      simp

/-- Folding from the empty grouping produces the grouping of the extracted
records. -/
theorem foldl_collectStep_nil (now : PyDateTime) (l : List JValue) :
    l.foldl (collectStep now) [] = groupingOf (l.filterMap (entryRecord now)) := by
  induction l with
  | nil => simp [groupingOf]
  | cons e rest ih =>
    cases her : entryRecord now e with
    | none =>
      simp only [List.foldl_cons, collectStep, her, List.filterMap_cons]
      exact ih
    | some r =>
      have hstep : collectStep now [] e = [(DEFAULT_COLLECTION_NAME, [r])] := by
        simp [collectStep, her, dictAppendRecord]
      simp only [List.foldl_cons, hstep, List.filterMap_cons, her,
        foldl_collectStep_single now rest [r], groupingOf]
      simp

/-- C5: on a crash-free bookmark list the extractor returns exactly the
grouping of the records extracted from the reversed list, in that order
(one default-named group); and an entry is dropped (`.ok none`) whenever its
content descriptor's type is not `"link"` or its url is falsy
(empty/missing). -/
theorem claim_C5 (fields : List (String × JValue)) (bs : List JValue) (now : PyDateTime)
    (hb : dictFind fields "bookmarks" = some (.arr bs))
    (hok : ∀ e ∈ bs, (entryStep now e).isOk = true) :
    collect_links (.obj fields) now =
      .ok (groupingOf (bs.reverse.filterMap (entryRecord now))) ∧
    (∀ (efields cf : List (String × JValue)),
      (if pyFalsy (dictGetJ efields "content") then JValue.obj []
        else dictGetJ efields "content") = .obj cf →
      (isLinkType (dictGetJ cf "type") = false →
        entryStep now (.obj efields) = .ok none) ∧
      (pyFalsy (dictGetJ cf "url") = true →
        entryStep now (.obj efields) = .ok none)) := by
  constructor
  · have hok2 : ∀ e ∈ bs.reverse, (entryStep now e).isOk = true :=
      fun e he => hok e (List.mem_reverse.mp he)
    simp only [collect_links, hb]
    rw [collectLoop_ok now bs.reverse [] hok2, foldl_collectStep_nil]
  · intro efields cf hcf
    constructor
    · intro ht
      simp [entryStep, hcf, ht]
    · intro hu
      by_cases hl : isLinkType (dictGetJ cf "type")
      · simp [entryStep, hcf, hl, hu]
      · simp [entryStep, hcf, hl]

/-- The C5 witness bookmark entries: one usable link, one non-link entry,
one url-less link entry. -/
def c5entries : List JValue :=
  [.obj [("content", .obj [("type", .str "link"), ("url", .str "https://a")])],
   .obj [("content", .obj [("type", .str "text")])],
   .obj [("content", .obj [("type", .str "link")])]]

/-- C5 witness: the theorem applied to a concrete document containing one
usable link, one non-link entry and one url-less link entry. -/
theorem claim_C5_witness :
    (dictFind [("bookmarks", JValue.arr c5entries)] "bookmarks" =
        some (.arr c5entries) ∧
      (∀ e ∈ c5entries, (entryStep ⟨0, some 0⟩ e).isOk = true)) ∧
    collect_links (.obj [("bookmarks", JValue.arr c5entries)]) ⟨0, some 0⟩ =
      .ok (groupingOf (c5entries.reverse.filterMap (entryRecord ⟨0, some 0⟩))) :=
  ⟨⟨rfl, by decide⟩,
   (claim_C5 [("bookmarks", JValue.arr c5entries)] c5entries ⟨0, some 0⟩ rfl
      (by decide)).1⟩

/-- Setting a key makes a dict lookup of that key return the new value. -/
theorem dictFind_dictSet_same (d : List (String × JValue)) (k : String) (v : JValue) :
    dictFind (dictSet d k v) k = some v := by
  induction d with
  | nil => simp [dictSet, dictFind]
  | cons p rest ih =>
    rcases p with ⟨k1, v1⟩
    by_cases hk : k1 = k
    · simp [dictSet, dictFind, hk]
    · simp [dictSet, dictFind, hk, ih]

/-- Setting one key leaves lookups of another key unchanged. -/
theorem dictFind_dictSet_other (d : List (String × JValue)) (k' : String) (v : JValue)
    (k : String) (h : k' ≠ k) : dictFind (dictSet d k' v) k = dictFind d k := by
  induction d with
  | nil => simp [dictSet, dictFind, h]
  | cons p rest ih =>
    rcases p with ⟨k1, v1⟩
    by_cases hk : k1 = k'
    · simp [dictSet, dictFind, hk, h]
    · by_cases hk2 : k1 = k
      · simp [dictSet, dictFind, hk, hk2, Ne.symm h]
      · simp [dictSet, dictFind, hk, hk2, ih]

/-- `setdefault` on one key leaves lookups of another key unchanged. -/
theorem dictFind_setdefault_other (d : List (String × JValue)) (k' : String) (v : JValue)
    (k : String) (h : k' ≠ k) : dictFind (dictSetdefault d k' v) k = dictFind d k := by
  unfold dictSetdefault
  cases dictFind d k' with
  | none => exact dictFind_dictSet_other d k' v k h
  | some w => rfl

/-- The link ids emitted by the inner loop are consecutive from `link_id`. -/
theorem build_links_ids (records : List LinkRecord) (uid : Nat) :
    ∀ lid cid, (build_links records uid lid cid).map (fun l => jGet l "id") =
      (List.range' lid records.length).map (fun i : Nat => JValue.num i) := by
  induction records with
  | nil => intro lid cid; rfl
  | cons r rest ih =>
    intro lid cid
    simp only [build_links, List.map_cons, List.length_cons, List.range'_succ]
    rw [ih (lid + 1) cid]
    rfl

/-- The inner loop emits one link per record. -/
theorem build_links_length (records : List LinkRecord) (uid : Nat) :
    ∀ lid cid, (build_links records uid lid cid).length = records.length := by
  induction records with
  | nil => intro lid cid; rfl
  | cons r rest ih =>
    intro lid cid
    simp only [build_links, List.length_cons, ih]

/-- The `links` array of a collection payload is the inner loop's output. -/
theorem jLinks_collectionPayload (name : String) (records : List LinkRecord)
    (uid : Nat) (color : Option String) (lid cid : Nat) :
    jLinks (collectionPayload name records uid color lid cid) =
      build_links records uid lid cid := by
  rfl

/-- The `id` of a collection payload. -/
theorem jGet_collectionPayload_id (name : String) (records : List LinkRecord)
    (uid : Nat) (color : Option String) (lid cid : Nat) :
    jGet (collectionPayload name records uid color lid cid) "id" = JValue.num cid := by
  rfl

/-- Collection ids and link ids are consecutive from the loop counters. -/
theorem build_collections_ids (grouped : List (String × List LinkRecord)) (uid : Nat)
    (color : Option String) : ∀ lid cid,
    ((build_collections grouped uid color lid cid).map (fun c => jGet c "id") =
      (List.range' cid (build_collections grouped uid color lid cid).length).map
        (fun i : Nat => JValue.num i)) ∧
    (((build_collections grouped uid color lid cid).flatMap jLinks).map
        (fun l => jGet l "id") =
      (List.range' lid
          (((build_collections grouped uid color lid cid).flatMap jLinks).length)).map
        (fun i : Nat => JValue.num i)) := by
  induction grouped with
  | nil => intro lid cid; exact ⟨rfl, rfl⟩
  | cons g rest ih =>
    intro lid cid
    rcases g with ⟨name, recs⟩
    by_cases he : recs.isEmpty
    · simp only [build_collections, if_pos he]
      exact ih lid cid
    · simp only [build_collections, if_neg he]
      constructor
      · simp only [List.map_cons, List.length_cons, List.range'_succ,
          jGet_collectionPayload_id]
        rw [(ih (lid + recs.length) (cid + 1)).1]
      · have hm := (ih (lid + recs.length) (cid + 1)).2
        simp only [List.flatMap_cons, jLinks_collectionPayload, List.map_append,
          List.length_append, build_links_length, build_links_ids, hm]
        have hr := List.range'_append lid recs.length
          (((build_collections rest uid color (lid + recs.length) (cid + 1)).flatMap
            jLinks).length) 1
        simp only [one_mul, mul_one] at hr
        have hr2 : List.range' lid (recs.length +
            ((build_collections rest uid color (lid + recs.length) (cid + 1)).flatMap
              jLinks).length) =
            List.range' lid recs.length ++
              List.range' (lid + recs.length)
                (((build_collections rest uid color (lid + recs.length)
                  (cid + 1)).flatMap jLinks).length) := by
          rw [Nat.add_comm]
          exact hr.symm
        rw [hr2, List.map_append]

/-- `JValue.num` composed with the `Nat` cast is injective. -/
theorem jnum_nat_injective : Function.Injective (fun i : Nat => JValue.num i) := by
  intro a b h
  simp only [JValue.num.injEq, Nat.cast_inj] at h
  exact h

/-- C6: in the built document, the `collections` entry holds the builder's
collections; collection ids are `1, 2, …` in group order and link ids are
`1, 2, …` globally across all collections in emission order (never reset),
so both id families are duplicate-free. -/
theorem claim_C6 (grouped : List (String × List LinkRecord)) (uid : Nat)
    (color : Option String) (base : List (String × JValue)) :
    dictFind (build_linkwarden_payload grouped uid color base) "collections" =
      some (.arr (build_collections grouped uid color 1 1)) ∧
    (build_collections grouped uid color 1 1).map (fun c => jGet c "id") =
      (List.range' 1 (build_collections grouped uid color 1 1).length).map
        (fun i : Nat => JValue.num i) ∧
    ((build_collections grouped uid color 1 1).flatMap jLinks).map (fun l => jGet l "id") =
      (List.range' 1 (((build_collections grouped uid color 1 1).flatMap jLinks).length)).map
        (fun i : Nat => JValue.num i) ∧
    ((build_collections grouped uid color 1 1).map (fun c => jGet c "id")).Nodup ∧
    (((build_collections grouped uid color 1 1).flatMap jLinks).map
        (fun l => jGet l "id")).Nodup := by
  have hids := build_collections_ids grouped uid color 1 1
  refine ⟨?_, hids.1, hids.2, ?_, ?_⟩
  · unfold build_linkwarden_payload
    rw [dictFind_setdefault_other _ _ _ _ (by decide),
      dictFind_setdefault_other _ _ _ _ (by decide),
      dictFind_dictSet_same]
  · rw [hids.1]
    exact (List.nodup_range' 1 _).map jnum_nat_injective
  · rw [hids.2]
    exact (List.nodup_range' 1 _).map jnum_nat_injective

/-- The fold used by Python `min` keeps a member that is minimal (first
minimum wins on ties). -/
theorem foldlMin_spec (rest : List PyDateTime) : ∀ d : PyDateTime,
    (rest.foldl (fun acc x => if dtKey x < dtKey acc then x else acc) d ∈ d :: rest) ∧
    dtKey (rest.foldl (fun acc x => if dtKey x < dtKey acc then x else acc) d) ≤ dtKey d ∧
    (∀ x ∈ rest,
      dtKey (rest.foldl (fun acc x => if dtKey x < dtKey acc then x else acc) d) ≤ dtKey x) := by
  induction rest with
  | nil =>
    intro d
    exact ⟨List.mem_cons_self d [], le_refl _, by simp⟩
  | cons x t ih =>
    intro d
    by_cases hx : dtKey x < dtKey d
    · simp only [List.foldl_cons, if_pos hx]
      obtain ⟨hmem, hled, hall⟩ := ih x
      refine ⟨List.mem_cons_of_mem d hmem, le_trans hled (le_of_lt hx), ?_⟩
      intro y hy
      rcases List.mem_cons.mp hy with rfl | hy
      · exact hled
      · exact hall y hy
    · simp only [List.foldl_cons, if_neg hx]
      obtain ⟨hmem, hled, hall⟩ := ih d
      refine ⟨?_, hled, ?_⟩
      · rcases List.mem_cons.mp hmem with heq | hmem2
        · rw [heq]
          exact List.mem_cons_self _ _
        · exact List.mem_cons_of_mem _ (List.mem_cons_of_mem _ hmem2)
      · intro y hy
        rcases List.mem_cons.mp hy with rfl | hy
        · exact le_trans hled (Int.not_lt.mp hx)
        · exact hall y hy

/-- `pyMinDt` of a non-empty list is a member attaining the minimum
instant. -/
theorem pyMinDt_spec (l : List PyDateTime) (h : l ≠ []) :
    pyMinDt l ∈ l ∧ ∀ x ∈ l, dtKey (pyMinDt l) ≤ dtKey x := by
  cases l with
  | nil => exact absurd rfl h
  | cons d rest =>
    obtain ⟨hmem, hled, hall⟩ := foldlMin_spec rest d
    refine ⟨hmem, ?_⟩
    intro x hx
    rcases List.mem_cons.mp hx with rfl | hx
    · exact hled
    · exact hall x hx

/-- Every link payload carries its own record's canonical timestamp in
`importDate`, `createdAt` and `updatedAt`. -/
theorem build_links_times (records : List LinkRecord) (uid : Nat) :
    ∀ lid cid, (build_links records uid lid cid).map
        (fun l => (jGet l "importDate", jGet l "createdAt", jGet l "updatedAt")) =
      records.map (fun r => (JValue.str (isoZ r.created_dt),
        JValue.str (isoZ r.created_dt), JValue.str (isoZ r.created_dt))) := by
  induction records with
  | nil => intro lid cid; rfl
  | cons r rest ih =>
    intro lid cid
    simp only [build_links, List.map_cons]
    rw [ih (lid + 1) cid]
    rfl

/-- C7: each collection's `createdAt` and `updatedAt` are the canonical
string of the earliest `created_at` among its member records (the code's
`min`, shown to be a minimal member), while each link's `importDate`,
`createdAt` and `updatedAt` are its own record's canonical string. -/
theorem claim_C7 :
    (∀ (grouped : List (String × List LinkRecord)) (uid : Nat) (color : Option String)
        (lid cid : Nat),
      List.Forall₂ (fun (c : JValue) (g : String × List LinkRecord) =>
          jGet c "createdAt" = JValue.str (isoZ (pyMinDt (g.2.map (·.created_dt)))) ∧
          jGet c "updatedAt" = JValue.str (isoZ (pyMinDt (g.2.map (·.created_dt)))) ∧
          (jLinks c).map
              (fun l => (jGet l "importDate", jGet l "createdAt", jGet l "updatedAt")) =
            g.2.map (fun r => (JValue.str (isoZ r.created_dt),
              JValue.str (isoZ r.created_dt), JValue.str (isoZ r.created_dt))))
        (build_collections grouped uid color lid cid)
        (grouped.filter (fun g => !g.2.isEmpty))) ∧
    (∀ l : List PyDateTime, l ≠ [] →
      pyMinDt l ∈ l ∧ ∀ x ∈ l, dtKey (pyMinDt l) ≤ dtKey x) := by
  constructor
  · intro grouped uid color
    induction grouped with
    | nil => intro lid cid; exact List.Forall₂.nil
    | cons g rest ih =>
      intro lid cid
      rcases g with ⟨name, recs⟩
      by_cases he : recs.isEmpty
      · simp only [build_collections, if_pos he]
        rw [List.filter_cons_of_neg]
        · exact ih lid cid
        · simp [he]
      · simp only [build_collections, if_neg he]
        rw [List.filter_cons_of_pos]
        · refine List.Forall₂.cons ⟨rfl, rfl, ?_⟩ (ih (lid + recs.length) (cid + 1))
          rw [jLinks_collectionPayload]
          exact build_links_times recs uid lid cid
        · simp [he]
  · exact pyMinDt_spec

/-- A concrete record for the C7 witness. -/
def c7rec : LinkRecord :=
  { title := .str "t", url := .str "u", description := .str "", tags := [],
    created_dt := ⟨0, some 0⟩ }

/-- C7 witness: the theorem applied to a one-record grouping and to a
concrete non-empty datetime list. -/
theorem claim_C7_witness :
    (List.Forall₂ (fun (c : JValue) (g : String × List LinkRecord) =>
        jGet c "createdAt" = JValue.str (isoZ (pyMinDt (g.2.map (·.created_dt)))) ∧
        jGet c "updatedAt" = JValue.str (isoZ (pyMinDt (g.2.map (·.created_dt)))) ∧
        (jLinks c).map
            (fun l => (jGet l "importDate", jGet l "createdAt", jGet l "updatedAt")) =
          g.2.map (fun r => (JValue.str (isoZ r.created_dt),
            JValue.str (isoZ r.created_dt), JValue.str (isoZ r.created_dt))))
      (build_collections [("G", [c7rec])] 1 none 1 1)
      ([("G", [c7rec])].filter (fun g => !g.2.isEmpty))) ∧
    ([(⟨5, some 0⟩ : PyDateTime)] ≠ [] ∧
      pyMinDt [⟨5, some 0⟩] ∈ [(⟨5, some 0⟩ : PyDateTime)] ∧
      ∀ x ∈ [(⟨5, some 0⟩ : PyDateTime)], dtKey (pyMinDt [⟨5, some 0⟩]) ≤ dtKey x) :=
  ⟨claim_C7.1 [("G", [c7rec])] 1 none 1 1,
   fun h => List.noConfusion h,
   claim_C7.2 [⟨5, some 0⟩] (fun h => List.noConfusion h)⟩

/-- Appending a record never leaves an empty group behind. -/
theorem dictAppendRecord_nonempty (acc : List (String × List LinkRecord))
    (name : String) (r : LinkRecord) (hacc : ∀ p ∈ acc, p.2 ≠ []) :
    ∀ p ∈ dictAppendRecord acc name r, p.2 ≠ [] := by
  induction acc with
  | nil =>
    intro p hp
    rcases List.mem_singleton.mp hp with rfl
    simp
  | cons q rest ih =>
    rcases q with ⟨k, rs⟩
    intro p hp
    by_cases hk : k = name
    · simp only [dictAppendRecord, if_pos hk] at hp
      rcases List.mem_cons.mp hp with rfl | hp
      · simp
      · exact hacc p (List.mem_cons_of_mem _ hp)
    · simp only [dictAppendRecord, if_neg hk] at hp
      rcases List.mem_cons.mp hp with rfl | hp
      · exact hacc _ (List.mem_cons_self _ _)
      · exact ih (fun q hq => hacc q (List.mem_cons_of_mem _ hq)) p hp

/-- The loop preserves the all-groups-non-empty invariant. -/
theorem collectLoop_nonempty (now : PyDateTime) (l : List JValue) :
    ∀ acc g, (∀ p ∈ acc, p.2 ≠ []) → collectLoop now l acc = .ok g →
      ∀ p ∈ g, p.2 ≠ [] := by
  induction l with
  | nil =>
    intro acc g hacc h
    cases h
    exact hacc
  | cons e rest ih =>
    intro acc g hacc h
    cases hes : entryStep now e with
    | error m =>
      rw [collectLoop, hes] at h
      exact absurd h (by simp)
    | ok o =>
      cases o with
      | none =>
        rw [collectLoop, hes] at h
        exact ih acc g hacc h
      | some r =>
        rw [collectLoop, hes] at h
        exact ih _ g (dictAppendRecord_nonempty acc DEFAULT_COLLECTION_NAME r hacc) h

/-- C10: every group the extractor returns is non-empty; hence the builder's
skip-empty-group filter is the identity on extractor output (the skip branch
never fires, and the builder emits one collection per group for every
counter start), and the driver's emptiness test on the grouping is
equivalent to no group holding a record. -/
theorem claim_C10 (doc : JValue) (now : PyDateTime)
    (g : List (String × List LinkRecord)) (h : collect_links doc now = .ok g) :
    (∀ p ∈ g, p.2 ≠ []) ∧
    (g.filter (fun p => !p.2.isEmpty) = g) ∧
    (∀ (uid : Nat) (color : Option String) (lid cid : Nat),
      (build_collections g uid color lid cid).length = g.length) ∧
    ((g = []) ↔ ∀ p ∈ g, p.2 = []) := by
  have h1 : ∀ p ∈ g, p.2 ≠ [] := by
    cases doc with
    | obj fields =>
      simp only [collect_links] at h
      cases hb : dictFind fields "bookmarks" with
      | none =>
        rw [hb] at h
        exact absurd h (by simp)
      | some v =>
        rw [hb] at h
        cases v with
        | arr bs => exact collectLoop_nonempty now bs.reverse [] g (by simp) h
        | null => exact absurd h (by simp)
        | bool b => exact absurd h (by simp)
        | num n => exact absurd h (by simp)
        | str s => exact absurd h (by simp)
        | obj o => exact absurd h (by simp)
    | null => exact absurd h (by simp [collect_links])
    | bool b => exact absurd h (by simp [collect_links])
    | num n => exact absurd h (by simp [collect_links])
    | str s => exact absurd h (by simp [collect_links])
    | arr l => exact absurd h (by simp [collect_links])
  refine ⟨h1, ?_, ?_, ?_⟩
  · apply List.filter_eq_self.mpr
    intro p hp
    simpa using h1 p hp
  · intro uid color
    clear h
    induction g with
    | nil => intro lid cid; rfl
    | cons p rest ih =>
      intro lid cid
      rcases p with ⟨name, rs⟩
      have hne : rs ≠ [] := h1 (name, rs) (List.mem_cons_self _ _)
      have he : rs.isEmpty = false := by
        cases rs with
        | nil => exact absurd rfl hne
        | cons a t => rfl
      simp only [build_collections, he, Bool.false_eq_true, if_false, List.length_cons]
      have ih2 := ih (fun q hq => h1 q (List.mem_cons_of_mem _ hq))
      rw [ih2 (lid + rs.length) (cid + 1)]
  · constructor
    · intro he
      rw [he]
      simp
    · intro hall
      cases g with
      | nil => rfl
      | cons p rest =>
        exact absurd (hall p (List.mem_cons_self _ _))
          (h1 p (List.mem_cons_self _ _))

/-- The C10 witness document: a single usable link bookmark. -/
def c10doc : JValue :=
  .obj [("bookmarks", .arr
    [.obj [("content", .obj [("type", .str "link"), ("url", .str "u")])]])]

/-- The grouping the extractor returns on `c10doc`. -/
def c10g : List (String × List LinkRecord) :=
  [("Hoarder Import",
    [{ title := .str "u", url := .str "u", description := .str "", tags := [],
       created_dt := ⟨0, some 0⟩ }])]

/-- C10 witness: the theorem applied to the concrete one-link document. -/
theorem claim_C10_witness :
    collect_links c10doc ⟨0, some 0⟩ = .ok c10g ∧
    ((∀ p ∈ c10g, p.2 ≠ []) ∧
      (c10g.filter (fun p => !p.2.isEmpty) = c10g) ∧
      (∀ (uid : Nat) (color : Option String) (lid cid : Nat),
        (build_collections c10g uid color lid cid).length = c10g.length) ∧
      ((c10g = []) ↔ ∀ p ∈ c10g, p.2 = [])) :=
  ⟨rfl, claim_C10 c10doc ⟨0, some 0⟩ c10g rfl⟩

/-!
Heap model for the deep-copy claim: Python objects live in a store addressed
by allocation index, so aliasing, in-place mutation and `copy.deepcopy` are
observable. Atoms (None/bool/int/str) are immutable and may be shared;
lists and dicts are mutable containers.
-/

/-- A Python object in the store: an immutable atom, or a mutable container
holding addresses. -/
inductive HObj where
  | null : HObj
  | bool : Bool → HObj
  | num : Int → HObj
  | str : String → HObj
  | arr : List Nat → HObj
  | dict : List (String × Nat) → HObj

/-- The store: address `a` holds the `a`-th object; allocation appends. -/
abbrev Heap := List HObj

/-- The addresses an object refers to. -/
def hrefs : HObj → List Nat
  | .arr elems => elems
  | .dict fields => fields.map (fun p => p.2)
  | _ => []

/-- Mutable (container) objects. -/
def isCont : HObj → Prop
  | .arr _ => True
  | .dict _ => True
  | _ => False

/-- Every reference of every stored object is a valid address. -/
def ClosedHeap (h : Heap) : Prop :=
  ∀ a o, h.get? a = some o → ∀ r ∈ hrefs o, r < h.length

/-- The heap grew without touching existing addresses (allocation and
writes at fresh addresses only). -/
def HeapMono (h h2 : Heap) : Prop :=
  h.length ≤ h2.length ∧ ∀ i, i < h.length → h2.get? i = h.get? i

/-- Reachability through object references. -/
inductive Reach (h : Heap) : Nat → Nat → Prop where
  | refl (a : Nat) : Reach h a a
  | step {a b c : Nat} (o : HObj) :
      Reach h a b → h.get? b = some o → c ∈ hrefs o → Reach h a c

/-- `c` holds a mutable object reachable from `a`: the addresses through
which a mutation of the object graph of `a` can act. -/
def MutReach (h : Heap) (a c : Nat) : Prop :=
  Reach h a c ∧ ∃ o, h.get? c = some o ∧ isCont o

mutual

/-- `copy.deepcopy` over the store: atoms are returned as the same object
(Python shares immutables), containers are copied recursively into fresh
allocations. The fuel keeps the recursion structural; the theorems take a
successful run as hypothesis. -/
def deepcopyH : Nat → Heap → Nat → Option (Heap × Nat)
  | 0, _, _ => none
  | f + 1, h, a =>
    match h.get? a with
    | none => none
    | some .null => some (h, a)
    | some (.bool _) => some (h, a)
    | some (.num _) => some (h, a)
    | some (.str _) => some (h, a)
    | some (.arr elems) =>
      match deepcopyHList f h elems with
      | none => none
      | some (h1, elems2) => some (h1 ++ [HObj.arr elems2], h1.length)
    | some (.dict fields) =>
      match deepcopyHFields f h fields with
      | none => none
      | some (h1, fields2) => some (h1 ++ [HObj.dict fields2], h1.length)

/-- Deep copy of a list of addresses, left to right. -/
def deepcopyHList : Nat → Heap → List Nat → Option (Heap × List Nat)
  | _, h, [] => some (h, [])
  | 0, _, _ :: _ => none
  | f + 1, h, a :: rest =>
    match deepcopyH f h a with
    | none => none
    | some (h1, a2) =>
      match deepcopyHList f h1 rest with
      | none => none
      | some (h2, rest2) => some (h2, a2 :: rest2)

/-- Deep copy of dict fields, left to right. -/
def deepcopyHFields : Nat → Heap → List (String × Nat) →
    Option (Heap × List (String × Nat))
  | _, h, [] => some (h, [])
  | 0, _, _ :: _ => none
  | f + 1, h, (k, a) :: rest =>
    match deepcopyH f h a with
    | none => none
    | some (h1, a2) =>
      match deepcopyHFields f h1 rest with
      | none => none
      | some (h2, rest2) => some (h2, (k, a2) :: rest2)

end

mutual

/-- Materialize a pure JSON value in the store, allocating fresh objects
bottom-up (how the builder's dict and list literals come into being). -/
def encodeJH : Heap → JValue → Heap × Nat
  | h, .null => (h ++ [HObj.null], h.length)
  | h, .bool b => (h ++ [HObj.bool b], h.length)
  | h, .num n => (h ++ [HObj.num n], h.length)
  | h, .str s => (h ++ [HObj.str s], h.length)
  | h, .arr l =>
    let p := encodeJHList h l
    (p.1 ++ [HObj.arr p.2], p.1.length)
  | h, .obj fs =>
    let p := encodeJHFields h fs
    (p.1 ++ [HObj.dict p.2], p.1.length)

/-- Materialize the elements of an array. -/
def encodeJHList : Heap → List JValue → Heap × List Nat
  | h, [] => (h, [])
  | h, v :: rest =>
    let p := encodeJH h v
    let q := encodeJHList p.1 rest
    (q.1, p.2 :: q.2)

/-- Materialize the fields of an object. -/
def encodeJHFields : Heap → List (String × JValue) → Heap × List (String × Nat)
  | h, [] => (h, [])
  | h, (k, v) :: rest =>
    let p := encodeJH h v
    let q := encodeJHFields p.1 rest
    (q.1, (k, p.2) :: q.2)

end

/-- Replace the value of `key` in dict fields, append when absent
(`d[key] = addr`). -/
def fieldsSet : List (String × Nat) → String → Nat → List (String × Nat)
  | [], key, addr => [(key, addr)]
  | (k, a) :: rest, key, addr =>
    if k = key then (k, addr) :: rest else (k, a) :: fieldsSet rest key addr

/-- Whether the key is present in dict fields. -/
def fieldsFind : List (String × Nat) → String → Option Nat
  | [], _ => none
  | (k, a) :: rest, key => if k = key then some a else fieldsFind rest key

/-- `payload[key] = addr`: in-place update of the dict object at `p`. -/
def heapDictSet (h : Heap) (p : Nat) (key : String) (addr : Nat) : Option Heap :=
  match h.get? p with
  | some (.dict fields) => some (h.set p (.dict (fieldsSet fields key addr)))
  | _ => none

/-- `payload.setdefault(key, [])`: the default empty list is allocated
first (Python evaluates the argument), the dict gains the key only when
absent. -/
def heapSetdefault (h : Heap) (p : Nat) (key : String) : Option Heap :=
  match h.get? p with
  | some (.dict fields) =>
    let h1 := h ++ [HObj.arr []]
    match fieldsFind fields key with
    | some _ => some h1
    | none => some (h1.set p (.dict (fields ++ [(key, h.length)])))
  | _ => none

/-- `build_linkwarden_payload` over the store (lines 204–272): deep-copy
the skeleton at `base`, materialize the collections array, assign it into
the copy, apply the two `setdefault`s, and return the copy's address. -/
def build_linkwarden_payload_heap (grouped : List (String × List LinkRecord))
    (user_id : Nat) (collection_color : Option String) (fuel : Nat)
    (h : Heap) (base : Nat) : Option (Heap × Nat) :=
  match deepcopyH fuel h base with
  | none => none
  | some (h1, payload) =>
    let ec := encodeJH h1 (.arr (build_collections grouped user_id collection_color 1 1))
    match heapDictSet ec.1 payload "collections" ec.2 with
    | none => none
    | some h3 =>
      match heapSetdefault h3 payload "pinnedLinks" with
      | none => none
      | some h4 =>
        match heapSetdefault h4 payload "whitelistedUsers" with
        | none => none
        | some h5 => some (h5, payload)

/-- A successful lookup means the address is in bounds. -/
theorem hlen_of_get {h : Heap} {a : Nat} {o : HObj} (hg : h.get? a = some o) :
    a < h.length := by
  rcases List.get?_eq_some.mp hg with ⟨hlt, _⟩
  exact hlt

/-- Lookups below the old length ignore appended objects. -/
theorem hget_append {h Δ : Heap} {i : Nat} (hi : i < h.length) :
    (h ++ Δ).get? i = h.get? i := by
  rw [List.get?_eq_getElem?, List.get?_eq_getElem?, List.getElem?_append_left hi]

/-- Lookup at the freshly appended address. -/
theorem hget_append_new (h : Heap) (o : HObj) : (h ++ [o]).get? h.length = some o := by
  rw [List.get?_eq_getElem?]
  simp [List.getElem?_append_right]

/-- Lookup at the written address. -/
theorem hget_set_self {h : Heap} {p : Nat} (o : HObj) (hp : p < h.length) :
    (h.set p o).get? p = some o := by
  simp [List.get?_eq_getElem?, List.getElem?_set_self', List.getElem?_eq_getElem hp]

/-- Lookup away from the written address. -/
theorem hget_set_ne {h : Heap} {p j : Nat} (o : HObj) (hne : p ≠ j) :
    (h.set p o).get? j = h.get? j := by
  simp [List.get?_eq_getElem?, List.getElem?_set_ne hne]

/-- `HeapMono` is reflexive. -/
theorem heapMono_refl (h : Heap) : HeapMono h h :=
  ⟨le_refl _, fun _ _ => rfl⟩

/-- `HeapMono` composes. -/
theorem heapMono_trans {h1 h2 h3 : Heap} (a : HeapMono h1 h2) (b : HeapMono h2 h3) :
    HeapMono h1 h3 :=
  ⟨le_trans a.1 b.1, fun i hi => by rw [b.2 i (lt_of_lt_of_le hi a.1), a.2 i hi]⟩

/-- Appending is `HeapMono`. -/
theorem heapMono_append (h Δ : Heap) : HeapMono h (h ++ Δ) :=
  ⟨by simp, fun i hi => hget_append hi⟩

/-- Writing at or above the old length is `HeapMono`. -/
theorem heapMono_set_ge {h h2 : Heap} {p : Nat} (o : HObj) (hm : HeapMono h h2)
    (hp : h.length ≤ p) : HeapMono h (h2.set p o) :=
  ⟨by simpa using hm.1, fun i hi => by
    rw [hget_set_ne o (by omega), hm.2 i hi]⟩

/-- Reachability from an object with no references is trivial. -/
theorem reach_atom {h : Heap} {a : Nat} {o : HObj} (hg : h.get? a = some o)
    (hno : hrefs o = []) : ∀ c, Reach h a c → c = a := by
  intro c hr
  induction hr with
  | refl => rfl
  | step o2 hr hget hmem ih =>
    rw [ih] at hget
    rw [hg] at hget
    rcases Option.some.injEq _ _ ▸ hget with rfl
    rw [hno] at hmem
    exact absurd hmem (List.not_mem_nil _)

/-- Reachability transfers to a heap that agrees on the closure. -/
theorem reach_transfer {h1 h2 : Heap} {a : Nat}
    (hagree : ∀ c, Reach h1 a c → h2.get? c = h1.get? c) :
    ∀ c, Reach h2 a c → Reach h1 a c := by
  intro c hr
  induction hr with
  | refl => exact Reach.refl a
  | step o2 hr hget hmem ih =>
    refine Reach.step o2 ih ?_ hmem
    rw [← hagree _ ih]
    exact hget

/-- A closure bounded below the heap's end transfers along `HeapMono`. -/
theorem reach_bound_mono {h1 h2 : Heap} {e : Nat} (hb : ∀ c, Reach h1 e c → c ≤ e)
    (hm : HeapMono h1 h2) (he : e < h1.length) :
    ∀ c, Reach h2 e c → Reach h1 e c := by
  apply reach_transfer
  intro c hc
  exact hm.2 c (lt_of_le_of_lt (hb c hc) he)

/-- In a closed heap, reachability from a valid address stays in the old
region even after monotone growth, and sees the old objects. -/
theorem reach_low {h1 h2 : Heap} {a : Nat} (hc : ClosedHeap h1) (hm : HeapMono h1 h2)
    (ha : a < h1.length) :
    ∀ c, Reach h2 a c → c < h1.length ∧ h2.get? c = h1.get? c ∧ Reach h1 a c := by
  intro c hr
  induction hr with
  | refl => exact ⟨ha, hm.2 a ha, Reach.refl a⟩
  | @step b c o2 hr hget hmem ih =>
    rcases ih with ⟨hblt, hbagree, hbr⟩
    have hget1 : h1.get? b = some o2 := by rw [← hbagree]; exact hget
    have hclt := hc b o2 hget1 c hmem
    exact ⟨hclt, hm.2 c hclt, Reach.step o2 hbr hget1 hmem⟩

/-- Reachability from a freshly allocated container: bounded by the new
address, and anything beyond the address itself is reached through one of
its references inside the old heap. -/
theorem reach_new_container {h1 : Heap} {o : HObj} (hclosed : ClosedHeap h1)
    (hlow : ∀ r ∈ hrefs o, r < h1.length)
    (helem : ∀ e ∈ hrefs o, ∀ c, Reach h1 e c → c ≤ e) :
    ∀ c, Reach (h1 ++ [o]) h1.length c →
      c ≤ h1.length ∧ (c = h1.length ∨ ∃ e ∈ hrefs o, Reach h1 e c) := by
  intro c hr
  induction hr with
  | refl => exact ⟨le_refl _, Or.inl rfl⟩
  | @step b c o2 hr hget hmem ih =>
    rcases ih with ⟨hble, hbcase⟩
    rcases hbcase with hbeq | ⟨e, he, hre⟩
    · rw [hbeq, hget_append_new] at hget
      rcases Option.some.injEq _ _ ▸ hget with rfl
      exact ⟨le_of_lt (hlow c hmem), Or.inr ⟨c, hmem, Reach.refl c⟩⟩
    · have hbe := helem e he b hre
      have hblt : b < h1.length := lt_of_le_of_lt hbe (hlow e he)
      have hget1 : h1.get? b = some o2 := by rw [← hget_append hblt]; exact hget
      have hr1 : Reach h1 e c := Reach.step o2 hre hget1 hmem
      exact ⟨le_trans (helem e he c hr1) (le_of_lt (hlow e he)), Or.inr ⟨e, he, hr1⟩⟩

/-- Per-element copy facts transfer along monotone heap growth. -/
theorem elemfacts_mono {hA hB : Heap} {e N : Nat} (hcA : ClosedHeap hA)
    (hmB : HeapMono hA hB) (helt : e < hA.length)
    (hbound : ∀ c, Reach hA e c → c ≤ e)
    (hmut : ∀ c, MutReach hA e c → N ≤ c) :
    e < hB.length ∧ (∀ c, Reach hB e c → c ≤ e) ∧
      (∀ c, MutReach hB e c → N ≤ c) := by
  refine ⟨lt_of_lt_of_le helt hmB.1, ?_, ?_⟩
  · intro c hr
    exact hbound c (reach_bound_mono hbound hmB helt c hr)
  · rintro c ⟨hr, o, hg, hcont⟩
    have hr1 := reach_bound_mono hbound hmB helt c hr
    have hclt : c < hA.length := lt_of_le_of_lt (hbound c hr1) helt
    have hg1 : hA.get? c = some o := by rw [← hmB.2 c hclt]; exact hg
    exact hmut c ⟨hr1, o, hg1, hcont⟩

/-- Copying an atom (returned as the same object) satisfies the copy
contract. -/
theorem copy_atom_spec {h : Heap} {a : Nat} {o : HObj} (hg : h.get? a = some o)
    (hno : hrefs o = []) (hnc : ¬ isCont o) (hc : ClosedHeap h) :
    HeapMono h h ∧ ClosedHeap h ∧ a < h.length ∧
      (∀ c, Reach h a c → c ≤ a) ∧ (∀ c, MutReach h a c → h.length ≤ c) ∧
      (∀ o2, h.get? a = some o2 → ∀ e ∈ hrefs o2, ∀ c, Reach h e c → c < a) := by
  refine ⟨heapMono_refl h, hc, hlen_of_get hg, ?_, ?_, ?_⟩
  · intro c hr
    rw [reach_atom hg hno c hr]
  · rintro c ⟨hr, o2, hg2, hcont⟩
    rw [reach_atom hg hno c hr] at hg2
    rw [hg] at hg2
    rcases Option.some.injEq _ _ ▸ hg2 with rfl
    exact absurd hcont hnc
  · intro o2 hg2 e he
    rw [hg] at hg2
    rcases Option.some.injEq _ _ ▸ hg2 with rfl
    rw [hno] at he
    exact absurd he (List.not_mem_nil e)

/-- Allocating a fresh container whose references satisfy the copy
contract satisfies it at the new address. -/
theorem copy_container_spec {h h1 : Heap} {o : HObj} (hm1 : HeapMono h h1)
    (hc1 : ClosedHeap h1) (hlow : ∀ r ∈ hrefs o, r < h1.length)
    (hbound : ∀ e ∈ hrefs o, ∀ c, Reach h1 e c → c ≤ e)
    (hmut : ∀ e ∈ hrefs o, ∀ c, MutReach h1 e c → h.length ≤ c) :
    HeapMono h (h1 ++ [o]) ∧ ClosedHeap (h1 ++ [o]) ∧
      h1.length < (h1 ++ [o]).length ∧
      (∀ c, Reach (h1 ++ [o]) h1.length c → c ≤ h1.length) ∧
      (∀ c, MutReach (h1 ++ [o]) h1.length c → h.length ≤ c) ∧
      (∀ o2, (h1 ++ [o]).get? h1.length = some o2 → ∀ e ∈ hrefs o2,
        ∀ c, Reach (h1 ++ [o]) e c → c < h1.length) := by
  refine ⟨heapMono_trans hm1 (heapMono_append h1 [o]), ?_, by simp, ?_, ?_, ?_⟩
  · intro b ob hgetb r hr
    by_cases hb : b < h1.length
    · rw [hget_append hb] at hgetb
      have := hc1 b ob hgetb r hr
      simp only [List.length_append, List.length_cons, List.length_nil]
      omega
    · have hblt := hlen_of_get hgetb
      simp only [List.length_append, List.length_cons, List.length_nil] at hblt
      have hbeq : b = h1.length := by omega
      rw [hbeq, hget_append_new] at hgetb
      rcases Option.some.injEq _ _ ▸ hgetb with rfl
      have := hlow r hr
      simp only [List.length_append, List.length_cons, List.length_nil]
      omega
  · intro c hr
    exact (reach_new_container hc1 hlow hbound c hr).1
  · rintro c ⟨hr, o2, hg2, hcont⟩
    rcases (reach_new_container hc1 hlow hbound c hr).2 with hceq | ⟨e, he, hre⟩
    · rw [hceq]
      exact hm1.1
    · have hcle : c ≤ e := hbound e he c hre
      have hclt : c < h1.length := lt_of_le_of_lt hcle (hlow e he)
      have hg1 : h1.get? c = some o2 := by rw [← hget_append hclt]; exact hg2
      exact hmut e he c ⟨hre, o2, hg1, hcont⟩
  · intro o2 hg2 e he c hr
    rw [hget_append_new] at hg2
    rcases Option.some.injEq _ _ ▸ hg2 with rfl
    have hre1 := reach_bound_mono (hbound e he) (heapMono_append h1 [o]) (hlow e he) c hr
    exact lt_of_le_of_lt (hbound e he c hre1) (hlow e he)

/-- The deep-copy contract: the heap only grows (existing addresses are
untouched), closure is preserved, the result address is valid, its closure
is bounded by it, and every mutable object it reaches is a fresh
allocation — so the copy shares no mutable object with anything that
existed before. -/
theorem deepcopy_spec : ∀ f : Nat,
    (∀ h a h2 a2, deepcopyH f h a = some (h2, a2) → ClosedHeap h →
      HeapMono h h2 ∧ ClosedHeap h2 ∧ a2 < h2.length ∧
      (∀ c, Reach h2 a2 c → c ≤ a2) ∧
      (∀ c, MutReach h2 a2 c → h.length ≤ c) ∧
      (∀ o2, h2.get? a2 = some o2 → ∀ e ∈ hrefs o2, ∀ c, Reach h2 e c → c < a2)) ∧
    (∀ h l h2 l2, deepcopyHList f h l = some (h2, l2) → ClosedHeap h →
      HeapMono h h2 ∧ ClosedHeap h2 ∧
      (∀ a2 ∈ l2, a2 < h2.length ∧ (∀ c, Reach h2 a2 c → c ≤ a2) ∧
        (∀ c, MutReach h2 a2 c → h.length ≤ c))) ∧
    (∀ h l h2 l2, deepcopyHFields f h l = some (h2, l2) → ClosedHeap h →
      HeapMono h h2 ∧ ClosedHeap h2 ∧
      (∀ p ∈ l2, p.2 < h2.length ∧ (∀ c, Reach h2 p.2 c → c ≤ p.2) ∧
        (∀ c, MutReach h2 p.2 c → h.length ≤ c))) := by
  intro f
  induction f with
  | zero =>
    refine ⟨?_, ?_, ?_⟩
    · intro h a h2 a2 hd
      exact absurd hd (by simp [deepcopyH])
    · intro h l h2 l2 hd hc
      cases l with
      | nil =>
        simp only [deepcopyHList, Option.some.injEq, Prod.mk.injEq] at hd
        rcases hd with ⟨rfl, rfl⟩
        exact ⟨heapMono_refl h, hc, by simp⟩
      | cons a rest => exact absurd hd (by simp [deepcopyHList])
    · intro h l h2 l2 hd hc
      cases l with
      | nil =>
        simp only [deepcopyHFields, Option.some.injEq, Prod.mk.injEq] at hd
        rcases hd with ⟨rfl, rfl⟩
        exact ⟨heapMono_refl h, hc, by simp⟩
      | cons p rest => exact absurd hd (by simp [deepcopyHFields])
  | succ f ih =>
    obtain ⟨IH1, IH2, IH3⟩ := ih
    refine ⟨?_, ?_, ?_⟩
    · intro h a h2 a2 hd hc
      rw [deepcopyH] at hd
      split at hd
      · exact absurd hd (by simp)
      · rename_i hg
        simp only [Option.some.injEq, Prod.mk.injEq] at hd
        rcases hd with ⟨rfl, rfl⟩
        exact copy_atom_spec hg rfl (by simp [isCont]) hc
      · rename_i b hg
        simp only [Option.some.injEq, Prod.mk.injEq] at hd
        rcases hd with ⟨rfl, rfl⟩
        exact copy_atom_spec hg rfl (by simp [isCont]) hc
      · rename_i n hg
        simp only [Option.some.injEq, Prod.mk.injEq] at hd
        rcases hd with ⟨rfl, rfl⟩
        exact copy_atom_spec hg rfl (by simp [isCont]) hc
      · rename_i s hg
        simp only [Option.some.injEq, Prod.mk.injEq] at hd
        rcases hd with ⟨rfl, rfl⟩
        exact copy_atom_spec hg rfl (by simp [isCont]) hc
      · rename_i elems hg
        split at hd
        · exact absurd hd (by simp)
        · rename_i h1 elems2 hdl
          simp only [Option.some.injEq, Prod.mk.injEq] at hd
          rcases hd with ⟨rfl, rfl⟩
          obtain ⟨hm1, hc1, helems⟩ := IH2 h elems h1 elems2 hdl hc
          exact copy_container_spec (o := HObj.arr elems2) hm1 hc1
            (fun r hr => (helems r hr).1)
            (fun e he => (helems e he).2.1)
            (fun e he => (helems e he).2.2)
      · rename_i fields hg
        split at hd
        · exact absurd hd (by simp)
        · rename_i h1 fields2 hdl
          simp only [Option.some.injEq, Prod.mk.injEq] at hd
          rcases hd with ⟨rfl, rfl⟩
          obtain ⟨hm1, hc1, hflds⟩ := IH3 h fields h1 fields2 hdl hc
          exact copy_container_spec (o := HObj.dict fields2) hm1 hc1
            (fun r hr => by
              rcases List.mem_map.mp hr with ⟨p, hp, rfl⟩
              exact (hflds p hp).1)
            (fun e he => by
              rcases List.mem_map.mp he with ⟨p, hp, rfl⟩
              exact (hflds p hp).2.1)
            (fun e he => by
              rcases List.mem_map.mp he with ⟨p, hp, rfl⟩
              exact (hflds p hp).2.2)
    · intro h l h2 l2 hd hc
      cases l with
      | nil =>
        simp only [deepcopyHList, Option.some.injEq, Prod.mk.injEq] at hd
        rcases hd with ⟨rfl, rfl⟩
        exact ⟨heapMono_refl h, hc, by simp⟩
      | cons a rest =>
        rw [deepcopyHList] at hd
        split at hd
        · exact absurd hd (by simp)
        · rename_i hA a2 hda
          split at hd
          · exact absurd hd (by simp)
          · rename_i hB rest2 hdr
            simp only [Option.some.injEq, Prod.mk.injEq] at hd
            rcases hd with ⟨rfl, rfl⟩
            obtain ⟨hmA, hcA, haLt, hbA, hmutA, _⟩ := IH1 h a hA a2 hda hc
            obtain ⟨hmB, hcB, hrest⟩ := IH2 hA rest hB rest2 hdr hcA
            refine ⟨heapMono_trans hmA hmB, hcB, ?_⟩
            intro e he
            rcases List.mem_cons.mp he with rfl | he2
            · exact elemfacts_mono hcA hmB haLt hbA hmutA
            · obtain ⟨h1f, h2f, h3f⟩ := hrest e he2
              exact ⟨h1f, h2f, fun c hm => le_trans hmA.1 (h3f c hm)⟩
    · intro h l h2 l2 hd hc
      cases l with
      | nil =>
        simp only [deepcopyHFields, Option.some.injEq, Prod.mk.injEq] at hd
        rcases hd with ⟨rfl, rfl⟩
        exact ⟨heapMono_refl h, hc, by simp⟩
      | cons p rest =>
        rcases p with ⟨k, a⟩
        rw [deepcopyHFields] at hd
        split at hd
        · exact absurd hd (by simp)
        · rename_i hA a2 hda
          split at hd
          · exact absurd hd (by simp)
          · rename_i hB rest2 hdr
            simp only [Option.some.injEq, Prod.mk.injEq] at hd
            rcases hd with ⟨rfl, rfl⟩
            obtain ⟨hmA, hcA, haLt, hbA, hmutA, _⟩ := IH1 h a hA a2 hda hc
            obtain ⟨hmB, hcB, hrest⟩ := IH3 hA rest hB rest2 hdr hcA
            refine ⟨heapMono_trans hmA hmB, hcB, ?_⟩
            intro e he
            rcases List.mem_cons.mp he with rfl | he2
            · exact elemfacts_mono hcA hmB haLt hbA hmutA
            · obtain ⟨h1f, h2f, h3f⟩ := hrest e he2
              exact ⟨h1f, h2f, fun c hm => le_trans hmA.1 (h3f c hm)⟩

/-- Per-element encode facts transfer along monotone heap growth. -/
theorem elemfacts_mono2 {hA hB : Heap} {e N : Nat} (hmB : HeapMono hA hB)
    (helt : e < hA.length)
    (hfact : ∀ c, Reach hA e c → N ≤ c ∧ c ≤ e) :
    e < hB.length ∧ (∀ c, Reach hB e c → N ≤ c ∧ c ≤ e) := by
  refine ⟨lt_of_lt_of_le helt hmB.1, ?_⟩
  intro c hr
  exact hfact c (reach_bound_mono (fun c2 hr2 => (hfact c2 hr2).2) hmB helt c hr)

/-- Allocating a fresh reference-free object: everything it reaches is
itself. -/
theorem alloc_atom_spec (h : Heap) (o : HObj) (hno : hrefs o = [])
    (hc : ClosedHeap h) :
    HeapMono h (h ++ [o]) ∧ ClosedHeap (h ++ [o]) ∧ h.length < (h ++ [o]).length ∧
    (∀ c, Reach (h ++ [o]) h.length c → h.length ≤ c ∧ c ≤ h.length) := by
  have hbound : ∀ c, Reach (h ++ [o]) h.length c → c = h.length :=
    reach_atom (hget_append_new h o) hno
  refine ⟨heapMono_append h [o], ?_, by simp, ?_⟩
  · intro b ob hgetb r hr
    by_cases hb : b < h.length
    · rw [hget_append hb] at hgetb
      have := hc b ob hgetb r hr
      simp only [List.length_append, List.length_cons, List.length_nil]
      omega
    · have hblt := hlen_of_get hgetb
      simp only [List.length_append, List.length_cons, List.length_nil] at hblt
      have hbeq : b = h.length := by omega
      rw [hbeq, hget_append_new] at hgetb
      rcases Option.some.injEq _ _ ▸ hgetb with rfl
      rw [hno] at hr
      exact absurd hr (List.not_mem_nil r)
  · intro c hr
    rw [hbound c hr]
    exact ⟨le_refl _, le_refl _⟩

/-- Allocating a fresh container whose references are fresh with fresh
closures: everything it reaches is fresh and bounded by it. -/
theorem alloc_container_spec {h h1 : Heap} {o : HObj} (hm1 : HeapMono h h1)
    (hc1 : ClosedHeap h1) (hlow : ∀ r ∈ hrefs o, r < h1.length)
    (hfact : ∀ e ∈ hrefs o, ∀ c, Reach h1 e c → h.length ≤ c ∧ c ≤ e) :
    HeapMono h (h1 ++ [o]) ∧ ClosedHeap (h1 ++ [o]) ∧
      h1.length < (h1 ++ [o]).length ∧
      (∀ c, Reach (h1 ++ [o]) h1.length c → h.length ≤ c ∧ c ≤ h1.length) := by
  have hbound : ∀ e ∈ hrefs o, ∀ c, Reach h1 e c → c ≤ e :=
    fun e he c hr => (hfact e he c hr).2
  refine ⟨heapMono_trans hm1 (heapMono_append h1 [o]), ?_, by simp, ?_⟩
  · intro b ob hgetb r hr
    by_cases hb : b < h1.length
    · rw [hget_append hb] at hgetb
      have := hc1 b ob hgetb r hr
      simp only [List.length_append, List.length_cons, List.length_nil]
      omega
    · have hblt := hlen_of_get hgetb
      simp only [List.length_append, List.length_cons, List.length_nil] at hblt
      have hbeq : b = h1.length := by omega
      rw [hbeq, hget_append_new] at hgetb
      rcases Option.some.injEq _ _ ▸ hgetb with rfl
      have := hlow r hr
      simp only [List.length_append, List.length_cons, List.length_nil]
      omega
  · intro c hr
    rcases (reach_new_container hc1 hlow hbound c hr).2 with hceq | ⟨e, he, hre⟩
    · rw [hceq]
      exact ⟨hm1.1, le_refl _⟩
    · exact ⟨(hfact e he c hre).1,
        le_trans (hbound e he c hre) (le_of_lt (hlow e he))⟩

mutual

/-- The encode contract: materializing a pure value only allocates, and the
result's closure lies entirely in the fresh region, bounded by the result
address — so it shares nothing with pre-existing objects. -/
theorem encodeJH_spec : ∀ (h : Heap) (v : JValue), ClosedHeap h →
    HeapMono h (encodeJH h v).1 ∧ ClosedHeap (encodeJH h v).1 ∧
    (encodeJH h v).2 < (encodeJH h v).1.length ∧
    (∀ c, Reach (encodeJH h v).1 (encodeJH h v).2 c →
      h.length ≤ c ∧ c ≤ (encodeJH h v).2)
  | h, .null, hc => alloc_atom_spec h HObj.null rfl hc
  | h, .bool b, hc => alloc_atom_spec h (HObj.bool b) rfl hc
  | h, .num n, hc => alloc_atom_spec h (HObj.num n) rfl hc
  | h, .str s, hc => alloc_atom_spec h (HObj.str s) rfl hc
  | h, .arr l, hc => by
    obtain ⟨hm1, hc1, helems⟩ := encodeJHList_spec h l hc
    exact alloc_container_spec (o := HObj.arr (encodeJHList h l).2) hm1 hc1
      (fun r hr => (helems r hr).1)
      (fun e he => (helems e he).2)
  | h, .obj fs, hc => by
    obtain ⟨hm1, hc1, hflds⟩ := encodeJHFields_spec h fs hc
    exact alloc_container_spec (o := HObj.dict (encodeJHFields h fs).2) hm1 hc1
      (fun r hr => by
        rcases List.mem_map.mp hr with ⟨p, hp, rfl⟩
        exact (hflds p hp).1)
      (fun e he => by
        rcases List.mem_map.mp he with ⟨p, hp, rfl⟩
        exact (hflds p hp).2)

/-- Encode contract for array elements. -/
theorem encodeJHList_spec : ∀ (h : Heap) (l : List JValue), ClosedHeap h →
    HeapMono h (encodeJHList h l).1 ∧ ClosedHeap (encodeJHList h l).1 ∧
    (∀ a2 ∈ (encodeJHList h l).2, a2 < (encodeJHList h l).1.length ∧
      (∀ c, Reach (encodeJHList h l).1 a2 c → h.length ≤ c ∧ c ≤ a2))
  | h, [], hc => ⟨heapMono_refl h, hc, by simp [encodeJHList]⟩
  | h, v :: rest, hc => by
    obtain ⟨hmA, hcA, haLt, hfA⟩ := encodeJH_spec h v hc
    obtain ⟨hmB, hcB, hrest⟩ := encodeJHList_spec (encodeJH h v).1 rest hcA
    refine ⟨heapMono_trans hmA hmB, hcB, ?_⟩
    intro e he
    simp only [encodeJHList, List.mem_cons] at he
    rcases he with rfl | he2
    · exact elemfacts_mono2 hmB haLt hfA
    · obtain ⟨h1f, h2f⟩ := hrest e he2
      exact ⟨h1f, fun c hm => ⟨le_trans hmA.1 (h2f c hm).1, (h2f c hm).2⟩⟩

/-- Encode contract for object fields. -/
theorem encodeJHFields_spec : ∀ (h : Heap) (l : List (String × JValue)), ClosedHeap h →
    HeapMono h (encodeJHFields h l).1 ∧ ClosedHeap (encodeJHFields h l).1 ∧
    (∀ p ∈ (encodeJHFields h l).2, p.2 < (encodeJHFields h l).1.length ∧
      (∀ c, Reach (encodeJHFields h l).1 p.2 c → h.length ≤ c ∧ c ≤ p.2))
  | h, [], hc => ⟨heapMono_refl h, hc, by simp [encodeJHFields]⟩
  | h, (k, v) :: rest, hc => by
    obtain ⟨hmA, hcA, haLt, hfA⟩ := encodeJH_spec h v hc
    obtain ⟨hmB, hcB, hrest⟩ := encodeJHFields_spec (encodeJH h v).1 rest hcA
    refine ⟨heapMono_trans hmA hmB, hcB, ?_⟩
    intro e he
    simp only [encodeJHFields, List.mem_cons] at he
    rcases he with rfl | he2
    · exact elemfacts_mono2 hmB haLt hfA
    · obtain ⟨h1f, h2f⟩ := hrest e he2
      exact ⟨h1f, fun c hm => ⟨le_trans hmA.1 (h2f c hm).1, (h2f c hm).2⟩⟩

end

/-- Reachability is transitive. -/
theorem reach_trans {h : Heap} {a b : Nat} (hab : Reach h a b) :
    ∀ c, Reach h b c → Reach h a c := by
  intro c hbc
  induction hbc with
  | refl => exact hab
  | @step x y o hr hget hmem ih => exact Reach.step o ih hget hmem

/-- Everything reachable from a stored object is the object itself or
reachable from one of its references. -/
theorem reach_from_obj {h : Heap} {p : Nat} {o : HObj} (hg : h.get? p = some o) :
    ∀ c, Reach h p c → c = p ∨ ∃ a ∈ hrefs o, Reach h a c := by
  intro c hr
  induction hr with
  | refl => exact Or.inl rfl
  | @step b c o2 hr hget hmem ih =>
    rcases ih with rfl | ⟨a, ha, hra⟩
    · rw [hg] at hget
      rcases Option.some.injEq _ _ ▸ hget with rfl
      exact Or.inr ⟨c, hmem, Reach.refl c⟩
    · exact Or.inr ⟨a, ha, Reach.step o2 hra hget hmem⟩

/-- Writing an object with valid references preserves heap closure. -/
theorem closedHeap_set {h : Heap} {p : Nat} {o : HObj} (hc : ClosedHeap h)
    (ho : ∀ r ∈ hrefs o, r < h.length) : ClosedHeap (h.set p o) := by
  intro b ob hget r hr
  simp only [List.length_set]
  by_cases hb : p = b
  · subst hb
    have hplt : p < h.length := by
      have := hlen_of_get hget
      simpa using this
    rw [hget_set_self o hplt] at hget
    rcases Option.some.injEq _ _ ▸ hget with rfl
    exact ho r hr
  · rw [hget_set_ne o hb] at hget
    exact hc b ob hget r hr

/-- Values of a dict after a key update come from the old values or the
new value. -/
theorem mem_fieldsSet_snd (fields : List (String × Nat)) (key : String) (addr : Nat) :
    ∀ a ∈ (fieldsSet fields key addr).map (fun q => q.2),
      a ∈ fields.map (fun q => q.2) ∨ a = addr := by
  induction fields with
  | nil =>
    intro a ha
    simp only [fieldsSet, List.map_cons, List.map_nil, List.mem_singleton] at ha
    exact Or.inr ha
  | cons q rest ih =>
    rcases q with ⟨k, v⟩
    intro a ha
    by_cases hk : k = key
    · simp only [fieldsSet, if_pos hk, List.map_cons, List.mem_cons] at ha
      rcases ha with rfl | ha
      · exact Or.inr rfl
      · exact Or.inl (List.mem_cons_of_mem v ha)
    · simp only [fieldsSet, if_neg hk, List.map_cons, List.mem_cons] at ha
      rcases ha with rfl | ha
      · exact Or.inl (List.mem_cons_self a _)
      · rcases ih a ha with ha2 | ha2
        · exact Or.inl (List.mem_cons_of_mem v ha2)
        · exact Or.inr ha2

/-- The facts maintained for each value stored in the payload dict: valid,
closure avoiding the payload address and in bounds, and every mutable
object it reaches allocated at or beyond `n0`. -/
def ValFacts (n0 p : Nat) (h : Heap) (a : Nat) : Prop :=
  a < h.length ∧ (∀ c, Reach h a c → c ≠ p ∧ c < h.length) ∧
    (∀ c, MutReach h a c → n0 ≤ c)

/-- Value facts survive a heap update that does not touch the value's
closure (growth plus a write at the payload address or beyond). -/
theorem valFacts_update {n0 p : Nat} {h h2 : Heap} {a : Nat}
    (hv : ValFacts n0 p h a) (hlen : h.length ≤ h2.length)
    (hagree : ∀ c, c ≠ p → c < h.length → h2.get? c = h.get? c) :
    ValFacts n0 p h2 a := by
  obtain ⟨halt, hreach, hmut⟩ := hv
  have htrans : ∀ c, Reach h2 a c → Reach h a c := by
    apply reach_transfer
    intro c hc
    exact hagree c (hreach c hc).1 (hreach c hc).2
  refine ⟨lt_of_lt_of_le halt hlen, ?_, ?_⟩
  · intro c hr
    have h1 := hreach c (htrans c hr)
    exact ⟨h1.1, lt_of_lt_of_le h1.2 hlen⟩
  · rintro c ⟨hr, o, hg, hcont⟩
    have hr1 := htrans c hr
    have h1 := hreach c hr1
    have hg1 : h.get? c = some o := by rw [← hagree c h1.1 h1.2]; exact hg
    exact hmut c ⟨hr1, o, hg1, hcont⟩

/-- The invariant carried through the builder's mutations of the payload
dict at `p`: the address is fresh, holds a dict, and every stored value
satisfies `ValFacts`. -/
def DictState (n0 : Nat) (h : Heap) (p : Nat) : Prop :=
  n0 ≤ p ∧ p < h.length ∧ ∃ fields, h.get? p = some (.dict fields) ∧
    ∀ a ∈ fields.map (fun q => q.2), ValFacts n0 p h a

/-- From the invariant: every mutable object reachable from the payload is
allocated at or beyond `n0`. -/
theorem dictState_mut {n0 : Nat} {h : Heap} {p : Nat} (hd : DictState n0 h p) :
    ∀ c, MutReach h p c → n0 ≤ c := by
  obtain ⟨hn0, hplt, fields, hg, hvals⟩ := hd
  rintro c ⟨hr, o, hgo, hcont⟩
  rcases reach_from_obj hg c hr with rfl | ⟨a, ha, hra⟩
  · exact hn0
  · have ham : a ∈ fields.map (fun q => q.2) := ha
    exact (hvals a ham).2.2 c ⟨hra, o, hgo, hcont⟩

/-- The invariant also bounds the payload's closure inside the heap. -/
theorem dictState_closure {n0 : Nat} {h : Heap} {p : Nat} (hd : DictState n0 h p) :
    ∀ c, Reach h p c → c < h.length := by
  obtain ⟨hn0, hplt, fields, hg, hvals⟩ := hd
  intro c hr
  rcases reach_from_obj hg c hr with rfl | ⟨a, ha, hra⟩
  · exact hplt
  · have ham : a ∈ fields.map (fun q => q.2) := ha
    exact ((hvals a ham).2.1 c hra).2

/-- `setdefault` preserves the payload invariant, heap closure, and
agreement with any older heap that predates the payload address. -/
theorem heapSetdefault_pres {n0 : Nat} {h h2 : Heap} {p : Nat} {key : String}
    (hd : DictState n0 h p) (hcl : ClosedHeap h) (hn0 : n0 ≤ h.length)
    (hsd : heapSetdefault h p key = some h2) :
    DictState n0 h2 p ∧ ClosedHeap h2 ∧
      (∀ g : Heap, HeapMono g h → g.length ≤ p → HeapMono g h2) := by
  obtain ⟨hp0, hplt, fields, hgp, hvals⟩ := hd
  simp only [heapSetdefault] at hsd
  split at hsd
  case h_2 => exact absurd hsd (by simp)
  case h_1 flds hg2 =>
    rw [hgp] at hg2
    have hfe : fields = flds := by
      have h3 := Option.some.injEq _ _ ▸ hg2
      exact HObj.dict.injEq _ _ ▸ h3
    subst hfe
    have happclosed : ClosedHeap (h ++ [HObj.arr []]) :=
      (alloc_atom_spec h (HObj.arr []) rfl hcl).2.1
    have hlenapp : (h ++ [HObj.arr []]).length = h.length + 1 := by simp
    split at hsd
    · -- key already present: only the garbage default list is allocated
      rcases Option.some.injEq _ _ ▸ hsd with rfl
      refine ⟨⟨hp0, by omega, fields, ?_, ?_⟩, happclosed, ?_⟩
      · rw [hget_append hplt]
        exact hgp
      · intro a ha
        exact valFacts_update (hvals a ha) (by omega)
          (fun c _ hlt => hget_append hlt)
      · intro g hg hgp2
        exact heapMono_trans hg (heapMono_append h [HObj.arr []])
    · -- key absent: allocate the default and write it into the dict
      rcases Option.some.injEq _ _ ▸ hsd with rfl
      have hplt2 : p < (h ++ [HObj.arr []]).length := by omega
      have hlen2 : ((h ++ [HObj.arr []]).set p
          (HObj.dict (fields ++ [(key, h.length)]))).length = h.length + 1 := by simp
      have hagree : ∀ c, c ≠ p → c < h.length →
          ((h ++ [HObj.arr []]).set p
            (HObj.dict (fields ++ [(key, h.length)]))).get? c = h.get? c := by
        intro c hne hlt
        rw [hget_set_ne _ (fun he => hne he.symm), hget_append hlt]
      have hgnew : ((h ++ [HObj.arr []]).set p
          (HObj.dict (fields ++ [(key, h.length)]))).get? h.length =
          some (HObj.arr []) := by
        rw [hget_set_ne _ (by omega), hget_append_new]
      refine ⟨⟨hp0, by omega, fields ++ [(key, h.length)], ?_, ?_⟩, ?_, ?_⟩
      · rw [hget_set_self _ hplt2]
      · intro a ha
        simp only [List.map_append, List.map_cons, List.map_nil,
          List.mem_append, List.mem_singleton] at ha
        rcases ha with ha | rfl
        · exact valFacts_update (hvals a ha) (by omega) hagree
        · refine ⟨by omega, ?_, ?_⟩
          · intro c hr
            have hce := reach_atom hgnew rfl c hr
            subst hce
            exact ⟨by omega, by omega⟩
          · rintro c ⟨hr, _⟩
            have hce := reach_atom hgnew rfl c hr
            subst hce
            omega
      · apply closedHeap_set happclosed
        intro r hr
        simp only [hrefs, List.map_append, List.map_cons, List.map_nil,
          List.mem_append, List.mem_singleton] at hr
        rcases hr with hr | rfl
        · have := hcl p (.dict fields) hgp r hr
          omega
        · omega
      · intro g hg hgp2
        have hgl := hg.1
        refine ⟨by omega, ?_⟩
        intro i hi
        rw [hagree i (by omega) (by omega), hg.2 i hi]

/-- One run of the heap-level builder: the heap only grows (the skeleton
and everything else pre-existing is unmodified), the returned payload is a
fresh object, and every mutable object it reaches was allocated during the
run. -/
theorem buildHeap_run (grouped : List (String × List LinkRecord)) (uid : Nat)
    (color : Option String) (fuel : Nat) (h : Heap) (base : Nat) (h2 : Heap) (p : Nat)
    (hc : ClosedHeap h)
    (hrun : build_linkwarden_payload_heap grouped uid color fuel h base = some (h2, p)) :
    HeapMono h h2 ∧ ClosedHeap h2 ∧ h.length ≤ p ∧ p < h2.length ∧
    (∀ c, MutReach h2 p c → h.length ≤ c) := by
  simp only [build_linkwarden_payload_heap] at hrun
  split at hrun
  · exact absurd hrun (by simp)
  case h_2 h1 p1 hdc =>
    obtain ⟨hm1, hc1, hplt1, hpbound, hpmut, hpchild⟩ :=
      (deepcopy_spec fuel).1 h base h1 p1 hdc hc
    obtain ⟨hmE, hcE, hvlt, hvfact⟩ := encodeJH_spec h1
      (.arr (build_collections grouped uid color 1 1)) hc1
    split at hrun
    · exact absurd hrun (by simp)
    case h_2 h3 hds =>
      simp only [heapDictSet] at hds
      split at hds
      case h_2 => exact absurd hds (by simp)
      case h_1 pfields hgp =>
        rcases Option.some.injEq _ _ ▸ hds with rfl
        set e1 := (encodeJH h1 (.arr (build_collections grouped uid color 1 1))).1 with he1
        set v := (encodeJH h1 (.arr (build_collections grouped uid color 1 1))).2 with hv
        have hgp1 : h1.get? p1 = some (.dict pfields) := by
          rw [← hmE.2 p1 hplt1]
          exact hgp
        have hple : h.length ≤ p1 :=
          hpmut p1 ⟨Reach.refl p1, .dict pfields, hgp1, trivial⟩
        have hmono3 : HeapMono h (e1.set p1
            (HObj.dict (fieldsSet pfields "collections" v))) :=
          heapMono_set_ge _ (heapMono_trans hm1 hmE) hple
        have hclosed3 : ClosedHeap (e1.set p1
            (HObj.dict (fieldsSet pfields "collections" v))) := by
          apply closedHeap_set hcE
          intro r hr
          have hr3 : r ∈ (fieldsSet pfields "collections" v).map (fun q => q.2) := hr
          rcases mem_fieldsSet_snd pfields "collections" v r hr3 with hr2 | rfl
          · have hrm : r ∈ hrefs (HObj.dict pfields) := hr2
            exact lt_of_lt_of_le (hc1 p1 _ hgp1 r hrm) hmE.1
          · exact hvlt
        have hstate3 : DictState h.length (e1.set p1
            (HObj.dict (fieldsSet pfields "collections" v))) p1 := by
          refine ⟨hple, by rw [List.length_set]; exact lt_of_lt_of_le hplt1 hmE.1,
            fieldsSet pfields "collections" v, ?_, ?_⟩
          · rw [hget_set_self _ (lt_of_lt_of_le hplt1 hmE.1)]
          · intro a ha
            have hagree : ∀ c, c ≠ p1 → c < e1.length →
                (e1.set p1 (HObj.dict (fieldsSet pfields "collections" v))).get? c =
                  e1.get? c :=
              fun c hne _ => hget_set_ne _ (fun he => hne he.symm)
            have hlen3 : e1.length ≤
                (e1.set p1 (HObj.dict (fieldsSet pfields "collections" v))).length := by
              rw [List.length_set]
            rcases mem_fieldsSet_snd pfields "collections" v a ha with ha2 | rfl
            · have ham : a ∈ hrefs (HObj.dict pfields) := ha2
              have hvf1 : ValFacts h.length p1 h1 a := by
                refine ⟨hc1 p1 _ hgp1 a ham, ?_, ?_⟩
                · intro c hr
                  have hcb := hpchild _ hgp1 a ham c hr
                  exact ⟨by omega, by omega⟩
                · rintro c ⟨hr, o, hgo, hcont⟩
                  have hp1a : Reach h1 p1 a :=
                    Reach.step _ (Reach.refl p1) hgp1 ham
                  exact hpmut c ⟨reach_trans hp1a c hr, o, hgo, hcont⟩
              have hvf2 : ValFacts h.length p1 e1 a :=
                valFacts_update hvf1 hmE.1 (fun c _ hlt => hmE.2 c hlt)
              exact valFacts_update hvf2 hlen3 hagree
            · have hvf2 : ValFacts h.length p1 e1 v := by
                refine ⟨hvlt, ?_, ?_⟩
                · intro c hr
                  have hvb := hvfact c hr
                  exact ⟨by omega, by omega⟩
                · rintro c ⟨hr, _⟩
                  exact le_trans hm1.1 (hvfact c hr).1
              exact valFacts_update hvf2 hlen3 hagree
        split at hrun
        · exact absurd hrun (by simp)
        case h_2 h4 hsd1 =>
          obtain ⟨hstate4, hclosed4, hmonoF4⟩ :=
            heapSetdefault_pres hstate3 hclosed3 hmono3.1 hsd1
          have hmono4 : HeapMono h h4 := hmonoF4 h hmono3 hple
          split at hrun
          · exact absurd hrun (by simp)
          case h_2 h5 hsd2 =>
            obtain ⟨hstate5, hclosed5, hmonoF5⟩ :=
              heapSetdefault_pres hstate4 hclosed4 hmono4.1 hsd2
            have hmono5 : HeapMono h h5 := hmonoF5 h hmono4 hple
            injection hrun with hpair
            injection hpair with hq1 hq2
            subst hq1
            subst hq2
            exact ⟨hmono5, hclosed5, hple, hstate5.2.1, dictState_mut hstate5⟩

/-- C9: the builder deep-copies the base-payload skeleton before populating
it — for every closed skeleton heap and every two builder invocations
against the same skeleton address, every pre-existing object (the skeleton
included) is left unmodified by both runs, each returned document is a
fresh object, and the two documents share no reachable mutable object, so
mutating one cannot affect the other. -/
theorem claim_C9 (g1 g2 : List (String × List LinkRecord)) (u1 u2 : Nat)
    (c1 c2 : Option String) (f1 f2 : Nat) (h h2 h3 : Heap) (base p1 p2 : Nat)
    (hc : ClosedHeap h)
    (hrun1 : build_linkwarden_payload_heap g1 u1 c1 f1 h base = some (h2, p1))
    (hrun2 : build_linkwarden_payload_heap g2 u2 c2 f2 h2 base = some (h3, p2)) :
    (∀ i, i < h.length → h3.get? i = h.get? i) ∧
    h.length ≤ p1 ∧ h2.length ≤ p2 ∧
    (∀ i, i < h2.length → h3.get? i = h2.get? i) ∧
    (∀ c, ¬ (MutReach h3 p1 c ∧ MutReach h3 p2 c)) := by
  obtain ⟨hm12, hc2, hple1, hp1lt, hmut1⟩ :=
    buildHeap_run g1 u1 c1 f1 h base h2 p1 hc hrun1
  obtain ⟨hm23, hc3, hple2, hp2lt, hmut2⟩ :=
    buildHeap_run g2 u2 c2 f2 h2 base h3 p2 hc2 hrun2
  refine ⟨fun i hi => (heapMono_trans hm12 hm23).2 i hi, hple1, hple2,
    fun i hi => hm23.2 i hi, ?_⟩
  rintro c ⟨⟨hr1, _⟩, hmr2⟩
  have hlow := (reach_low hc2 hm23 hp1lt c hr1).1
  have hhigh := hmut2 c hmr2
  omega

/-- A one-object skeleton heap: the base payload is an empty dict. -/
def c9h0 : Heap := [HObj.dict []]

/-- The heap after the first builder run on `c9h0` (payload at 1). -/
def c9h1 : Heap :=
  [HObj.dict [],
   HObj.dict [("collections", 2), ("pinnedLinks", 3), ("whitelistedUsers", 4)],
   HObj.arr [], HObj.arr [], HObj.arr []]

/-- The heap after the second builder run on `c9h1` (payload at 5). -/
def c9h2 : Heap :=
  c9h1 ++
  [HObj.dict [("collections", 6), ("pinnedLinks", 7), ("whitelistedUsers", 8)],
   HObj.arr [], HObj.arr [], HObj.arr []]

/-- Witness: two concrete builder runs against the same one-object skeleton
satisfy the frame conditions of the deep-copy theorem. -/
theorem claim_C9_witness :
    ClosedHeap c9h0 ∧
    build_linkwarden_payload_heap [] 1 none 9 c9h0 0 = some (c9h1, 1) ∧
    build_linkwarden_payload_heap [] 1 none 9 c9h1 0 = some (c9h2, 5) ∧
    ((∀ i, i < c9h0.length → c9h2.get? i = c9h0.get? i) ∧
     c9h0.length ≤ 1 ∧ c9h1.length ≤ 5 ∧
     (∀ i, i < c9h1.length → c9h2.get? i = c9h1.get? i) ∧
     (∀ c, ¬ (MutReach c9h2 1 c ∧ MutReach c9h2 5 c))) := by
  have hc : ClosedHeap c9h0 := by
    intro a o hg r hr
    cases a with
    | zero =>
      rw [show c9h0.get? 0 = some (HObj.dict []) from rfl] at hg
      rcases Option.some.injEq _ _ ▸ hg with rfl
      simp [hrefs] at hr
    | succ n =>
      rw [show c9h0.get? (n + 1) = none from rfl] at hg
      exact absurd hg (by simp)
  exact ⟨hc, rfl, rfl,
    claim_C9 [] [] 1 1 none none 9 9 c9h0 c9h1 c9h2 0 1 5 hc rfl rfl⟩
